import Mathlib

/-!
Verification of the `wasmi` register-machine engine core.

This file gives a shallow embedding of the compilation and execution core
of the `wasmi` WebAssembly interpreter (the `wasmi_v1` engine):

* the value stack with its `extend_by` / `shrink_by` operations
  (`engine/inner/execute/stack/values.rs`);
* the execution `Stack` with `init`, `return_wasm`, `call_host` and
  `call_host_as_root` (`engine/inner/execute/stack/mod.rs`);
* the `ExecProvider` signed-integer tagging of registers and constants
  (`engine/provider.rs`);
* the deduplicating provider-slice arena (`engine/provider.rs`);
* the copy analyzer `TrueCopies` and the branch-emission entry points of
  the instruction builder (`engine/func_builder/inst_builder.rs`);
* the label registry (pinning discipline).

Types whose defining module is not part of the source snapshot
(`frames.rs`, `labels.rs`, `providers.rs`, `bytecode/utils.rs`,
`const_pool.rs`) are modelled from the specification, and are marked as
such in their doc comments.

Machine integers are modelled as `Nat` / `Int` with explicit bounds where
overflow or truncation matters.  Rust panics are modelled by `Option`
(`none` = panic); fallible operations returning `Result` are modelled by
`Except`.
-/

namespace Wasmi

/-- An untyped 64-bit value cell of the value stack (`UntypedValue`).
Its `default` is the all-zero value, modelled as `0`. -/
abbrev UntypedValue := Nat

/-- Maximal value of a `usize` (64-bit platform), used to model
`checked_add` overflow. -/
def USIZE_MAX : Nat := 2 ^ 64 - 1

/-- The subset of `TrapCode` relevant to the verified operations. -/
inductive TrapCode where
  | StackOverflow
  | Unreachable
  | MemoryOutOfBounds
  deriving DecidableEq, Repr

/-- A runtime trap: either a `TrapCode` or a host-side error/trap
returned by a host function. -/
inductive Trap where
  | code (c : TrapCode)
  | host
  deriving DecidableEq, Repr

/-- Modelled from the spec: `FrameRegion` lives in the missing
`stack/frames.rs`; the spec describes it as a `(start, length)` pair into
the value stack (`region = (start, length)`). -/
structure FrameRegion where
  start : Nat
  len : Nat
  deriving DecidableEq, Repr

/-- Whether `snd` starts exactly where `fst` ends
(`FrameRegion::followed_by`). -/
def FrameRegion.followed_by (fst snd : FrameRegion) : Prop :=
  fst.start + fst.len = snd.start

/-- The value stack (`ValueStack` in `stack/values.rs`): a growable array
of 64-bit cells together with the configured maximal length. -/
structure ValueStack where
  values : List UntypedValue
  maximum_len : Nat
  deriving DecidableEq, Repr

/-- Length of the value stack (`ValueStack::len`). -/
def ValueStack.len (vs : ValueStack) : Nat :=
  vs.values.length

/-- Clears the value stack (`ValueStack::clear`). -/
def ValueStack.clear (vs : ValueStack) : ValueStack :=
  { vs with values := [] }

/-- Extends the value stack by `delta` zero-initialized values
(`ValueStack::extend_by`).  The source computes
`len.checked_add(delta).filter(|new_len| new_len <= maximum_len)`
and fails with `TrapCode::StackOverflow` otherwise; on success it appends
`delta` default values and returns `FrameRegion::new(len, delta)`.
The untouched stack is returned alongside the error on failure. -/
def ValueStack.extend_by (vs : ValueStack) (delta : Nat) :
    Except TrapCode FrameRegion × ValueStack :=
  let len := vs.len
  if len + delta ≤ USIZE_MAX ∧ len + delta ≤ vs.maximum_len then
    (Except.ok ⟨len, delta⟩,
      { vs with values := vs.values ++ List.replicate delta 0 })
  else
    (Except.error TrapCode.StackOverflow, vs)

/-- Shrinks the value stack by `delta` values (`ValueStack::shrink_by`,
`truncate(len - delta)`).  All call sites have `delta ≤ len`. -/
def ValueStack.shrink_by (vs : ValueStack) (delta : Nat) : ValueStack :=
  { vs with values := vs.values.take (vs.values.length - delta) }

/-- The register window of a frame region
(`ValueStack::frame_regs`). -/
def ValueStack.frame_regs (vs : ValueStack) (region : FrameRegion) :
    List UntypedValue :=
  (vs.values.drop region.start).take region.len

/-- The pair of register windows of two neighbouring frame regions
(`ValueStack::paired_frame_regs`): the slice `values[fst.start..snd.end]`
split at `fst.len`. -/
def ValueStack.paired_frame_regs (vs : ValueStack) (fst snd : FrameRegion) :
    List UntypedValue × List UntypedValue :=
  let window := (vs.values.drop fst.start).take (snd.start + snd.len - fst.start)
  (window.take fst.len, window.drop fst.len)

/-- A register of the executable bytecode (`ExecRegister`, a `u16`
index); the `u16` bound appears as a hypothesis where it matters. -/
structure ExecRegister where
  inner : Nat
  deriving DecidableEq, Repr

/-- A reference into the constant pool (`ConstRef`, a `u32` index). -/
structure ConstRef where
  inner : Nat
  deriving DecidableEq, Repr

/-- An executable provider (`ExecProvider`): a single `i32` where
non-negative values encode registers and negative values encode constant
references. -/
structure ExecProvider where
  inner : Int
  deriving DecidableEq, Repr

/-- Smallest `i32` value. -/
def i32_min : Int := -(2 ^ 31)

/-- Release-mode semantics of `i32::abs`: mathematical absolute value,
except that `i32::MIN` wraps to itself (two's complement). -/
def i32_abs (x : Int) : Int :=
  if x = i32_min then i32_min else |x|

/-- Wrapping of an integer into the `i32` range (two's complement),
modelling `wrapping_add` / `wrapping_sub`. -/
def wrap_i32 (x : Int) : Int :=
  (x + 2 ^ 31) % 2 ^ 32 - 2 ^ 31

/-- Encodes a register (`ExecProvider::from_register`):
`register.into_inner() as u32 as i32` is the plain register index. -/
def ExecProvider.from_register (register : ExecRegister) : ExecProvider :=
  ⟨(register.inner : Int)⟩

/-- Encodes a constant reference (`ExecProvider::from_immediate`):
asserts `index < i32::MAX` (modelled as `none` on failure) and stores
`(index as i32).wrapping_add(1).neg()`, which is `-(index + 1)` within
the asserted range. -/
def ExecProvider.from_immediate (immediate : ConstRef) : Option ExecProvider :=
  if immediate.inner < 2 ^ 31 - 1 then
    some ⟨-((immediate.inner : Int) + 1)⟩
  else
    none

/-- Decoded form of an `ExecProvider` (`RegisterOrImmediate`). -/
inductive RegisterOrImmediate where
  | Register (register : ExecRegister)
  | Immediate (immediate : ConstRef)
  deriving DecidableEq, Repr

/-- Decodes an `ExecProvider` (`ExecProvider::decode`): negative values
yield `ConstRef::from_usize(self.0.abs().wrapping_sub(1) as usize)`;
non-negative values yield `ExecRegister::from_inner(self.0 as u16)`
(truncating to 16 bits). -/
def ExecProvider.decode (p : ExecProvider) : RegisterOrImmediate :=
  if p.inner < 0 then
    .Immediate ⟨(wrap_i32 (i32_abs p.inner - 1)).toNat⟩
  else
    .Register ⟨p.inner.toNat % 2 ^ 16⟩

/-- A handle into the deduplicating provider-slice arena
(`ExecProviderSlice`): a `(first, len)` pair of `u16` indices. -/
structure ExecProviderSlice where
  first : Nat
  len : Nat
  deriving DecidableEq, Repr

/-- The deduplicating provider-slice arena (`DedupProviderSliceArena`):
a map from provider sequences to previously allocated slices plus the
backing storage of all interned providers.  The `BTreeMap` is modelled
as an association list queried by key equality. -/
structure DedupProviderSliceArena where
  dedup : List (List ExecProvider × ExecProviderSlice)
  providers : List ExecProvider
  deriving DecidableEq, Repr

/-- Key lookup in the modelled `BTreeMap` (first entry with an equal
key). -/
def dedupLookup (d : List (List ExecProvider × ExecProviderSlice))
    (key : List ExecProvider) : Option ExecProviderSlice :=
  match d with
  | [] => none
  | (k, s) :: rest => if k = key then some s else dedupLookup rest key

/-- The empty arena (`DedupProviderSliceArena::default`). -/
def DedupProviderSliceArena.empty : DedupProviderSliceArena :=
  ⟨[], []⟩

/-- Resolves a slice to its providers (`DedupProviderSliceArena::resolve`,
`&self.providers[first..first + len]`). -/
def DedupProviderSliceArena.resolve (a : DedupProviderSliceArena)
    (slice : ExecProviderSlice) : List ExecProvider :=
  (a.providers.drop slice.first).take slice.len

/-- Allocates a provider sequence (`DedupProviderSliceArena::alloc`).
An occupied dedup entry is returned as is; otherwise the sequence is
appended to the backing storage and a fresh slice starting at the old
storage length is recorded.  The source panics if the start offset or
the length does not fit a `u16`; this is modelled by `none`. -/
def DedupProviderSliceArena.alloc (a : DedupProviderSliceArena)
    (providers : List ExecProvider) :
    Option (ExecProviderSlice × DedupProviderSliceArena) :=
  match dedupLookup a.dedup providers with
  | some slice => some (slice, a)
  | none =>
    if a.providers.length < 2 ^ 16 ∧ providers.length < 2 ^ 16 then
      let slice : ExecProviderSlice := ⟨a.providers.length, providers.length⟩
      some (slice, ⟨(providers, slice) :: a.dedup, a.providers ++ providers⟩)
    else
      none

/-- Well-formedness of the arena: every dedup entry resolves to its own
key (so a slice handle determines its sequence).  This holds for the
empty arena and is preserved by `alloc`. -/
def ArenaWF (a : DedupProviderSliceArena) : Prop :=
  ∀ e ∈ a.dedup,
    e.2.first + e.2.len ≤ a.providers.length ∧ a.resolve e.2 = e.1

/-- Modelled from the spec: label state of the label registry
(`labels.rs` is missing from the snapshot).  A label is either
unresolved, with the list of pending use sites, or pinned to an
instruction index. -/
inductive LabelState where
  | Unresolved (uses : List Nat)
  | Pinned (pc : Nat)
  deriving DecidableEq, Repr

/-- Modelled from the spec: the label registry is the per-label state,
indexed by the label handle (`LabelRef`). -/
abbrev LabelRegistry := List LabelState

/-- Modelled from the spec: `pin_label(label, pc)` transitions the label
to `Pinned(pc)` and fails if the label is already pinned (`none` also
covers an out-of-range label handle). -/
def LabelRegistry.pin_label (reg : LabelRegistry) (label pc : Nat) :
    Option LabelRegistry :=
  match reg.get? label with
  | some (.Unresolved _) => some (reg.set label (.Pinned pc))
  | some (.Pinned _) => none
  | none => none

/-- Modelled from the spec: `try_pin_label(label, pc)` pins an unpinned
label and is a no-op on an already pinned label. -/
def LabelRegistry.try_pin_label (reg : LabelRegistry) (label pc : Nat) :
    LabelRegistry :=
  match reg.get? label with
  | some (.Unresolved _) => reg.set label (.Pinned pc)
  | _ => reg

/-- A register of the IR (`IrRegister`): a local variable register or a
dynamically allocated register.  The defining module is missing from the
snapshot; modelled from the spec (locals occupy registers below
`num_locals`, dynamic values a bump-allocated region above). -/
inductive IrRegister where
  | Local (index : Nat)
  | Dynamic (index : Nat)
  deriving DecidableEq, Repr

/-- Register offset within a contiguous slice: bumps the index, staying
in the same register space. -/
def IrRegister.add (r : IrRegister) (n : Nat) : IrRegister :=
  match r with
  | .Local index => .Local (index + n)
  | .Dynamic index => .Dynamic (index + n)

/-- An IR provider (`IrProvider`): a register or an inline immediate
value. -/
inductive IrProvider where
  | Register (register : IrRegister)
  | Immediate (value : UntypedValue)
  deriving DecidableEq, Repr

/-- Modelled from the spec: a contiguous IR register slice
(`IrRegisterSlice`), a `(first, length)` pair with length below `2^16`. -/
structure IrRegisterSlice where
  first : IrRegister
  len : Nat
  deriving DecidableEq, Repr

/-- The empty register slice (`IrRegisterSlice::empty`). -/
def IrRegisterSlice.empty : IrRegisterSlice :=
  ⟨.Dynamic 0, 0⟩

/-- The registers of the slice in order (`IrRegisterSlice::iter`). -/
def IrRegisterSlice.toList (s : IrRegisterSlice) : List IrRegister :=
  (List.range s.len).map fun k => s.first.add k

/-- Sub-slice for an index range `a..b` (`IrRegisterSlice::sub_slice`),
`none` when the range is out of bounds. -/
def IrRegisterSlice.sub_slice (s : IrRegisterSlice) (a b : Nat) :
    Option IrRegisterSlice :=
  if a ≤ b ∧ b ≤ s.len then some ⟨s.first.add a, b - a⟩ else none

/-- Modelled from the spec: a handle into the IR provider-slice arena
(`IrProviderSlice`), an `(offset, length)` pair. -/
structure IrProviderSlice where
  first : Nat
  len : Nat
  deriving DecidableEq, Repr

/-- Modelled from the spec: `skip(n)` on a provider slice drops the
first `n` providers, still referencing the original storage. -/
def IrProviderSlice.skip (s : IrProviderSlice) (n : Nat) : IrProviderSlice :=
  ⟨s.first + n, s.len - n⟩

/-- Modelled from the spec: `take(m)` on a provider slice keeps at most
the first `m` providers, still referencing the original storage. -/
def IrProviderSlice.take (s : IrProviderSlice) (m : Nat) : IrProviderSlice :=
  ⟨s.first, min m s.len⟩

/-- Lookup in the IR arena dedup map (key equality on the provider
sequence). -/
def irDedupLookup (d : List (List IrProvider × IrProviderSlice))
    (key : List IrProvider) : Option IrProviderSlice :=
  match d with
  | [] => none
  | (k, s) :: rest => if k = key then some s else irDedupLookup rest key

/-- Modelled from the spec: the translation-time provider-slice arena
(`ProviderSliceArena`, `providers.rs` is missing from the snapshot).
Per spec §4.2 it interns provider sequences, deduplicating by full
sequence equality. -/
structure ProviderSliceArena where
  dedup : List (List IrProvider × IrProviderSlice)
  providers : List IrProvider
  deriving DecidableEq, Repr

/-- The empty IR arena. -/
def ProviderSliceArena.empty : ProviderSliceArena :=
  ⟨[], []⟩

/-- Modelled from the spec: `resolve` of an IR provider slice. -/
def ProviderSliceArena.resolve (a : ProviderSliceArena)
    (slice : IrProviderSlice) : List IrProvider :=
  (a.providers.drop slice.first).take slice.len

/-- Modelled from the spec: `alloc` interns a provider sequence,
returning an existing slice on a dedup hit and appending to the backing
storage otherwise. -/
def ProviderSliceArena.alloc (a : ProviderSliceArena)
    (providers : List IrProvider) : IrProviderSlice × ProviderSliceArena :=
  match irDedupLookup a.dedup providers with
  | some slice => (slice, a)
  | none =>
    let slice : IrProviderSlice := ⟨a.providers.length, providers.length⟩
    (slice, ⟨(providers, slice) :: a.dedup, a.providers ++ providers⟩)

/-- The result of the copy analysis (`TrueCopies`). -/
inductive TrueCopies where
  | None
  | Single (result : IrRegister) (input : IrProvider)
  | Many (results : IrRegisterSlice) (inputs : IrProviderSlice)
  deriving DecidableEq, Repr

/-- The filter predicate of `TrueCopies::true_copies_iter`: a copy is a
true copy unless its input is a register equal to the result
register. -/
def isTrueCopy (result : IrRegister) (input : IrProvider) : Bool :=
  match input with
  | .Register register => decide (result ≠ register)
  | .Immediate _ => true

/-- The enumerated true copies (`TrueCopies::true_copies_iter`):
`results.iter().zip(inputs).enumerate()` filtered to true copies. -/
def TrueCopies.true_copies_iter (results : IrRegisterSlice)
    (inputs : List IrProvider) : List (Nat × (IrRegister × IrProvider)) :=
  ((results.toList.zip inputs).enum).filter fun e => isTrueCopy e.2.1 e.2.2

/-- Number of true copies (`TrueCopies::count_true_copies`). -/
def TrueCopies.count_true_copies (results : IrRegisterSlice)
    (inputs : List IrProvider) : Nat :=
  (TrueCopies.true_copies_iter results inputs).length

/-- Position `k` of a results/inputs pairing is a true copy: the input
at `k` exists and is not a register equal to the `k`-th result
register. -/
def isTrueCopyAt (results : IrRegisterSlice) (inputs : List IrProvider)
    (k : Nat) : Bool :=
  decide (k < results.len) &&
    match inputs.get? k with
    | some input => isTrueCopy (results.first.add k) input
    | none => false

/-- Well-formedness of the IR provider-slice arena: every dedup entry
resolves to its own key.  Holds for the empty arena and is preserved by
`alloc`. -/
def IrArenaWF (a : ProviderSliceArena) : Prop :=
  ∀ e ∈ a.dedup,
    e.2.first + e.2.len ≤ a.providers.length ∧ a.resolve e.2 = e.1

/-- The copy analyzer over a plain provider list (`TrueCopies::analyze`).
The cases by number of true copies: `0` yields `None`; `1` yields
`Single` of the unique true copy; otherwise the head and tail no-op
positions are trimmed, the trimmed inputs are interned into the arena
and a `Many` is produced.  The source's `sub_slice(..).expect(..)` is
modelled by `getD` (the indices are always in bounds, see the analysis
theorem). -/
def TrueCopies.analyze (arena : ProviderSliceArena)
    (results : IrRegisterSlice) (inputs : List IrProvider) :
    TrueCopies × ProviderSliceArena :=
  match TrueCopies.true_copies_iter results inputs with
  | [] => (.None, arena)
  | [(_, (result, input))] => (.Single result input, arena)
  | e :: e2 :: rest =>
    let copies := e :: e2 :: rest
    let first_index := e.1
    let last_index := (copies.getLast (by simp)).1 + 1
    let len := last_index - first_index
    let trimmed := (inputs.drop first_index).take len
    let results2 :=
      (results.sub_slice first_index last_index).getD IrRegisterSlice.empty
    let (slice, arena2) := arena.alloc trimmed
    (.Many results2 slice, arena2)

/-- The copy analyzer over an interned provider slice
(`TrueCopies::analyze_slice`).  Identical to `analyze` except that the
all-true-copies case returns the original slice handle and the trim case
uses `skip`/`take` on the handle instead of re-interning; the arena is
only read. -/
def TrueCopies.analyze_slice (arena : ProviderSliceArena)
    (results : IrRegisterSlice) (inputs : IrProviderSlice) : TrueCopies :=
  let slice := arena.resolve inputs
  match TrueCopies.true_copies_iter results slice with
  | [] => .None
  | [(_, (result, input))] => .Single result input
  | e :: e2 :: rest =>
    let copies := e :: e2 :: rest
    if copies.length = results.len then
      .Many results inputs
    else
      let first_index := e.1
      let last_index := (copies.getLast (by simp)).1 + 1
      let len := last_index - first_index
      let trimmed := (inputs.skip first_index).take len
      let results2 :=
        (results.sub_slice first_index last_index).getD IrRegisterSlice.empty
      .Many results2 trimmed

/-- A label handle (`LabelRef`). -/
abbrev LabelRef := Nat

/-- The IR instructions constructed by the instruction builder
(`IrInstruction`, the variants emitted by `push_copy_instr`,
`push_copy_many_instr`, `push_br` and `push_br_nez`); the defining
module is missing from the snapshot, the constructors and their fields
mirror the construction sites in `inst_builder.rs`. -/
inductive IrInstruction where
  | Br (target : LabelRef)
  | BrCopy (target : LabelRef) (result : IrRegister) (returned : IrRegister)
  | BrCopyImm (target : LabelRef) (result : IrRegister)
      (returned : UntypedValue)
  | BrCopyMulti (target : LabelRef) (results : IrRegisterSlice)
      (returned : IrProviderSlice)
  | BrNez (target : LabelRef) (condition : IrRegister)
  | BrNezSingle (target : LabelRef) (condition : IrRegister)
      (result : IrRegister) (returned : IrProvider)
  | BrNezMulti (target : LabelRef) (condition : IrRegister)
      (results : IrRegisterSlice) (returned : IrProviderSlice)
  | Copy (result : IrRegister) (input : IrRegister)
  | CopyImm (result : IrRegister) (input : UntypedValue)
  | CopyMany (results : IrRegisterSlice) (inputs : IrProviderSlice)
  deriving DecidableEq, Repr

/-- The instruction builder (`InstructionsBuilder`): the instructions of
the partially constructed function body and the label registry. -/
structure InstructionsBuilder where
  insts : List IrInstruction
  labels : LabelRegistry
  deriving DecidableEq, Repr

/-- Pushes an instruction (`InstructionsBuilder::push_inst`), returning
the index of the pushed instruction. -/
def InstructionsBuilder.push_inst (b : InstructionsBuilder)
    (inst : IrInstruction) : Nat × InstructionsBuilder :=
  (b.insts.length, { b with insts := b.insts ++ [inst] })

/-- Emits a branch with copy coalescing (`InstructionsBuilder::push_br`):
a plain `Br` when there are no true copies, a fused `BrCopy` /
`BrCopyImm` for a single true copy, and a fused `BrCopyMulti`
otherwise. -/
def InstructionsBuilder.push_br (b : InstructionsBuilder)
    (arena : ProviderSliceArena) (target : LabelRef)
    (results : IrRegisterSlice) (inputs : IrProviderSlice) :
    Nat × InstructionsBuilder :=
  match TrueCopies.analyze_slice arena results inputs with
  | .None => b.push_inst (.Br target)
  | .Single result input =>
    match input with
    | .Register returned => b.push_inst (.BrCopy target result returned)
    | .Immediate returned => b.push_inst (.BrCopyImm target result returned)
  | .Many results2 inputs2 => b.push_inst (.BrCopyMulti target results2 inputs2)

/-- Emits a conditional branch with copy coalescing
(`InstructionsBuilder::push_br_nez`): a plain `BrNez` when there are no
true copies, a fused `BrNezSingle` for a single true copy, and a fused
`BrNezMulti` otherwise. -/
def InstructionsBuilder.push_br_nez (b : InstructionsBuilder)
    (arena : ProviderSliceArena) (target : LabelRef)
    (condition : IrRegister) (results : IrRegisterSlice)
    (inputs : IrProviderSlice) : Nat × InstructionsBuilder :=
  match TrueCopies.analyze_slice arena results inputs with
  | .None => b.push_inst (.BrNez target condition)
  | .Single result input =>
    b.push_inst (.BrNezSingle target condition result input)
  | .Many results2 inputs2 =>
    b.push_inst (.BrNezMulti target condition results2 inputs2)

/-- Modelled from the spec: a contiguous executable register slice
(`ExecRegisterSlice` from the missing `bytecode/utils.rs`), a
`(first, length)` pair of register indices. -/
structure ExecRegisterSlice where
  first : Nat
  len : Nat
  deriving DecidableEq, Repr

/-- The empty executable register slice. -/
def ExecRegisterSlice.empty : ExecRegisterSlice :=
  ⟨0, 0⟩

/-- The leading parameter registers (`ExecRegisterSlice::params`):
registers `0 .. n`. -/
def ExecRegisterSlice.params (n : Nat) : ExecRegisterSlice :=
  ⟨0, n⟩

/-- The register indices of the slice in order
(`ExecRegisterSlice::iter`). -/
def ExecRegisterSlice.toList (s : ExecRegisterSlice) : List Nat :=
  (List.range s.len).map fun k => s.first + k

/-- Modelled from the spec: a runtime stack frame (`StackFrame` from the
missing `stack/frames.rs`), restricted to the fields the verified
operations consume: the value-stack region, the caller-specified result
registers and the program counter. -/
structure StackFrame where
  region : FrameRegion
  results : ExecRegisterSlice
  pc : Nat
  deriving DecidableEq, Repr

/-- Modelled from the spec: the frame stack (`FrameStack` from the
missing `stack/frames.rs`), bounded by `maximum_recursion_depth`.  The
head of the list is the most recently pushed frame. -/
structure FrameStack where
  frames : List StackFrame
  maximum_recursion_depth : Nat
  deriving DecidableEq, Repr

/-- Modelled from the spec: `FrameStack::push_frame` fails with a stack
overflow when the depth would be exceeded; a fresh frame starts at
program counter `0`. -/
def FrameStack.push_frame (fs : FrameStack) (region : FrameRegion)
    (results : ExecRegisterSlice) : Except TrapCode FrameStack :=
  if fs.frames.length < fs.maximum_recursion_depth then
    .ok { fs with frames := ⟨region, results, 0⟩ :: fs.frames }
  else
    .error TrapCode.StackOverflow

/-- The execution stack (`Stack`): value stack plus frame stack. -/
structure Stack where
  values : ValueStack
  frames : FrameStack
  deriving DecidableEq, Repr

/-- Resets the stack data entirely (`Stack::reset`): both the value
stack and the frame stack are cleared, the configured limits remain. -/
def Stack.reset (s : Stack) : Stack :=
  ⟨⟨[], s.values.maximum_len⟩, ⟨[], s.frames.maximum_recursion_depth⟩⟩

/-- The engine resources consumed by the stack operations: the constant
pool (modelled from the spec: an indexable table of 64-bit values, its
defining `const_pool.rs` is missing) and the provider-slice pool. -/
structure EngineResources where
  const_pool : List UntypedValue
  provider_pool : DedupProviderSliceArena
  deriving DecidableEq, Repr

/-- Reads the value of a provider relative to a register window
(`StackFrameRegisters::load_provider`): a register decodes to a window
cell (reads are in bounds for validated bytecode; modelled by `getD`),
a constant decodes through the constant pool (`none` models the panic on
a missing constant). -/
def load_provider (res : EngineResources) (regs : List UntypedValue)
    (provider : ExecProvider) : Option UntypedValue :=
  match provider.decode with
  | .Register register => some (regs.getD register.inner 0)
  | .Immediate cref => res.const_pool.get? cref.inner

/-- Reads a list of providers relative to a fixed register window. -/
def load_providers (res : EngineResources) (regs : List UntypedValue)
    (providers : List ExecProvider) : Option (List UntypedValue) :=
  match providers with
  | [] => some []
  | p :: rest => do
    let v ← load_provider res regs p
    let vs ← load_providers res regs rest
    pure (v :: vs)

/-- Writes a list of `(register, value)` pairs into a register window in
order (`StackFrameRegisters::set` iterated). -/
def setPairs (regs : List UntypedValue) (pairs : List (Nat × UntypedValue)) :
    List UntypedValue :=
  match pairs with
  | [] => regs
  | (r, v) :: rest => setPairs (regs.set r v) rest

/-- Writes the leading cells of a register window from a value list
(a `zip`-bounded positional write, as used for feeding parameters). -/
def writeLeading (regs ps : List UntypedValue) : List UntypedValue :=
  match regs, ps with
  | regs, [] => regs
  | [], _ => []
  | _ :: regs, p :: ps => p :: writeLeading regs ps

/-- Replaces the window of a frame region inside the value stack
(write-back of an updated register window). -/
def ValueStack.setRegion (vs : ValueStack) (region : FrameRegion)
    (w : List UntypedValue) : ValueStack :=
  { vs with values :=
      vs.values.take region.start ++ w ++
        vs.values.drop (region.start + region.len) }

/-- The caller-to-callee interface of a host function
(`HostFuncEntity`): the parameter and result counts of its signature and
its behaviour, which receives the register window serving as the
parameters/results view and either returns the updated window or `none`
for a host-side error or trap. -/
structure HostFuncEntity where
  len_params : Nat
  len_results : Nat
  behavior : List UntypedValue → Option (List UntypedValue)

/-- The result-copying loop of `Stack::return_wasm`
(`results.iter().zip(returned).for_each(..)`): each pair reads the
returned provider from the (fixed, disjoint) callee window and writes it
to a caller result register.  `none` models the panic on a missing
constant. -/
def copyResults (res : EngineResources)
    (caller_regs callee_regs : List UntypedValue)
    (pairs : List (Nat × ExecProvider)) : Option (List UntypedValue) :=
  match pairs with
  | [] => some caller_regs
  | (r, p) :: rest => do
    let v ← load_provider res callee_regs p
    copyResults res (caller_regs.set r v) callee_regs rest

/-- The parameter-feeding loop of `Stack::call_host`
(`args.iter().zip(params).for_each(..)`): each pair reads an argument
provider from the (fixed, disjoint) caller window and writes it into a
leading callee register. -/
def writeParams (res : EngineResources)
    (caller_regs callee_regs : List UntypedValue)
    (pairs : List (ExecProvider × Nat)) : Option (List UntypedValue) :=
  match pairs with
  | [] => some callee_regs
  | (p, r) :: rest => do
    let v ← load_provider res caller_regs p
    writeParams res caller_regs (callee_regs.set r v) rest

/-- Returns the last Wasm frame to its caller (`Stack::return_wasm`).
With only the root frame left it signals finalization (`some none`);
otherwise the callee frame is popped, the returned providers are copied
from the callee window into the caller-specified result registers of
the caller window, and the value stack is shrunk by the callee region
length.  The outer `none` models the panics (empty frame stack, result
count mismatch, missing constant). -/
def Stack.return_wasm (stack : Stack) (returned : ExecProviderSlice)
    (res : EngineResources) : Option (Option Stack) :=
  match stack.frames.frames with
  | [] => none
  | [_] => some none
  | callee :: caller :: rest =>
    let returnedList := res.provider_pool.resolve returned
    let results := callee.results
    if results.len = returnedList.length then
      let caller_regs :=
        (stack.values.paired_frame_regs caller.region callee.region).1
      let callee_regs :=
        (stack.values.paired_frame_regs caller.region callee.region).2
      match copyResults res caller_regs callee_regs
          (results.toList.zip returnedList) with
      | some caller_regs2 =>
        let values2 :=
          (stack.values.setRegion caller.region caller_regs2).shrink_by
            callee.region.len
        some (some ⟨values2, { stack.frames with frames := caller :: rest }⟩)
      | none => none
    else
      none

/-- Executes a host function with the last frame as its caller
(`Stack::call_host`).  A window of `max(len_params, len_results)`
registers is pushed, the argument providers are fed into its leading
registers, the host behaviour runs on the window, its leading result
registers are copied back into the caller-specified result registers and
the window is removed.  A trap from `extend_by` or from the host
propagates immediately (the `?` operator), leaving the value stack in
its state at that point. -/
def Stack.call_host (stack : Stack) (host : HostFuncEntity)
    (results : ExecRegisterSlice) (args : ExecProviderSlice)
    (res : EngineResources) : Option (Except Trap Unit × Stack) :=
  match stack.frames.frames with
  | [] => none
  | caller :: _ =>
    let len_params := host.len_params
    let len_results := host.len_results
    let max_inout := max len_params len_results
    match stack.values.extend_by max_inout with
    | (.error tc, values1) => some (.error (.code tc), ⟨values1, stack.frames⟩)
    | (.ok callee_region, values1) =>
      let caller_regs :=
        (values1.paired_frame_regs caller.region callee_region).1
      let callee_regs :=
        (values1.paired_frame_regs caller.region callee_region).2
      let argsList := res.provider_pool.resolve args
      let pairs := argsList.zip (ExecRegisterSlice.params len_params).toList
      match writeParams res caller_regs callee_regs pairs with
      | none => none
      | some callee_regs2 =>
        match host.behavior callee_regs2 with
        | none =>
          some (.error .host,
            ⟨values1.setRegion callee_region callee_regs2, stack.frames⟩)
        | some hostOut =>
          let write_back :=
            results.toList.zip
              ((ExecRegisterSlice.params len_results).toList.map fun r =>
                hostOut.getD r 0)
          let caller_regs2 := setPairs caller_regs write_back
          let values2 :=
            ((values1.setRegion callee_region hostOut).setRegion
              caller.region caller_regs2).shrink_by max_inout
          some (.ok (), ⟨values2, stack.frames⟩)

/-- Executes a host function as the root of the execution
(`Stack::call_host_as_root`).  A window of
`max(len_params, len_results)` registers is pushed, the parameter values
are fed into its leading registers, the host behaviour runs on the
window, and the leading result registers are read back as the call
results.  No frame is pushed and the window is not removed. -/
def Stack.call_host_as_root (stack : Stack) (host : HostFuncEntity)
    (params : List UntypedValue) :
    Option (Except Trap (List UntypedValue) × Stack) :=
  match stack.frames.frames with
  | _ :: _ => none
  | [] =>
    let max_inout := max host.len_params host.len_results
    match stack.values.extend_by max_inout with
    | (.error tc, values1) => some (.error (.code tc), ⟨values1, stack.frames⟩)
    | (.ok callee_region, values1) =>
      let window := values1.frame_regs callee_region
      let window1 := writeLeading window params
      let values2 := values1.setRegion callee_region window1
      match host.behavior window1 with
      | none => some (.error .host, ⟨values2, stack.frames⟩)
      | some hostOut =>
        let out := hostOut.take host.len_results
        let values3 := values2.setRegion callee_region hostOut
        some (.ok out, ⟨values3, stack.frames⟩)

/-- Initializes the stack with the root function call frame
(`Stack::init`).  The stack is reset entirely, a root region of
`len_regs` zero-initialized registers is pushed, the root frame is
pushed, and the parameter values are fed into the leading registers of
the root window.  The source asserts `len_params ≤ len_regs`; the
violated assertion is modelled by `none`. -/
def Stack.init (stack : Stack) (len_regs : Nat)
    (params : List UntypedValue) : Option (Except TrapCode Stack) :=
  let s := stack.reset
  if params.length ≤ len_regs then
    match s.values.extend_by len_regs with
    | (.error tc, _) => some (.error tc)
    | (.ok root_region, values1) =>
      match s.frames.push_frame root_region ExecRegisterSlice.empty with
      | .error tc => some (.error tc)
      | .ok frames1 =>
        let window := values1.frame_regs root_region
        let window1 := writeLeading window params
        some (.ok ⟨values1.setRegion root_region window1, frames1⟩)
  else
    none

/-! ## Theorems -/

/-- C4: `ValueStack::extend_by(delta)` fails with the `StackOverflow`
trap code if and only if the current length plus `delta` overflows
`usize` or exceeds the configured `maximum_len`; on success it appends
exactly `delta` new (zero) values and returns a frame region starting at
the old length with length `delta`; on failure the stack contents and
length are unchanged. -/
theorem ValueStack.extend_by_spec (vs : ValueStack) (delta : Nat) :
    ((vs.extend_by delta).1 = Except.error TrapCode.StackOverflow ↔
      USIZE_MAX < vs.len + delta ∨ vs.maximum_len < vs.len + delta)
    ∧ (∀ region vs2, vs.extend_by delta = (Except.ok region, vs2) →
        vs2.values = vs.values ++ List.replicate delta 0 ∧
        vs2.maximum_len = vs.maximum_len ∧
        region = ⟨vs.len, delta⟩)
    ∧ ((vs.extend_by delta).1 = Except.error TrapCode.StackOverflow →
        (vs.extend_by delta).2 = vs) := by
  unfold ValueStack.extend_by
  by_cases h : vs.len + delta ≤ USIZE_MAX ∧ vs.len + delta ≤ vs.maximum_len
  · rw [if_pos h]
    refine ⟨by simp; omega, ?_, by simp⟩
    intro region vs2 heq
    simp only [Prod.mk.injEq, Except.ok.injEq] at heq
    obtain ⟨hr, hv⟩ := heq
    subst hr hv
    simp
  · rw [if_neg h]
    refine ⟨by simp; omega, ?_, by simp⟩
    intro region vs2 heq
    simp at heq

/-- Witness for C4 at a concrete input: a stack of length one extended
by two values. -/
theorem ValueStack.extend_by_spec_witness :
    (ValueStack.mk [5] 10 |>.extend_by 2).2.values = [5] ++ List.replicate 2 0 ∧
    (ValueStack.mk [5] 10 |>.extend_by 2).1 = Except.ok ⟨1, 2⟩ := by
  have h := ValueStack.extend_by_spec ⟨[5], 10⟩ 2
  have h2 := h.2.1 ⟨1, 2⟩ ⟨[5, 0, 0], 10⟩ (by rfl)
  exact ⟨by rw [show (ValueStack.mk [5] 10 |>.extend_by 2).2 = ⟨[5, 0, 0], 10⟩ from rfl]; exact h2.1, by rfl⟩

/-- C5: the provider encoding is a bijective tagging round-trip: a
16-bit register decodes back to itself, an in-range constant reference
decodes back to itself, a non-negative encoded integer always decodes to
a register, and a negative encoded integer `n` decodes to the constant
with index `|n| - 1` (with release-mode wrapping semantics of
`i32::abs` at `i32::MIN`). -/
theorem ExecProvider.encoding_spec :
    (∀ r : ExecRegister, r.inner < 2 ^ 16 →
      (ExecProvider.from_register r).decode = .Register r)
    ∧ (∀ c p, ExecProvider.from_immediate c = some p →
        p.decode = .Immediate c)
    ∧ (∀ n : Int, 0 ≤ n → ∃ r, ExecProvider.decode ⟨n⟩ = .Register r)
    ∧ (∀ n : Int, i32_min ≤ n → n < 0 →
        ExecProvider.decode ⟨n⟩ = .Immediate ⟨(-n - 1).toNat⟩) := by
  refine ⟨?_, ?_, ?_, ?_⟩
  · intro r hr
    unfold ExecProvider.from_register ExecProvider.decode
    rw [if_neg (by simp)]
    cases r with
    | mk i =>
      simp only [RegisterOrImmediate.Register.injEq, ExecRegister.mk.injEq]
      rw [Int.toNat_ofNat]
      exact Nat.mod_eq_of_lt hr
  · intro c p h
    obtain ⟨ci⟩ := c
    unfold ExecProvider.from_immediate at h
    split at h
    case isTrue hc =>
      dsimp only at hc
      cases h
      unfold ExecProvider.decode
      dsimp only
      rw [if_pos (by omega)]
      have habs : i32_abs (-((ci : Int) + 1)) = (ci : Int) + 1 := by
        unfold i32_abs i32_min
        rw [if_neg (by push_cast; omega), abs_neg, abs_of_nonneg (by positivity)]
      rw [habs]
      simp only [add_sub_cancel_right, RegisterOrImmediate.Immediate.injEq,
        ConstRef.mk.injEq]
      unfold wrap_i32
      omega
    case isFalse => cases h
  · intro n hn
    unfold ExecProvider.decode
    dsimp only
    rw [if_neg (by omega)]
    exact ⟨_, rfl⟩
  · intro n h1 h2
    unfold ExecProvider.decode
    dsimp only
    rw [if_pos h2]
    by_cases hmin : n = i32_min
    · subst hmin
      decide
    · have habs : i32_abs n = -n := by
        unfold i32_abs
        rw [if_neg hmin, abs_of_neg h2]
      rw [habs]
      simp only [RegisterOrImmediate.Immediate.injEq, ConstRef.mk.injEq]
      unfold wrap_i32
      unfold i32_min at h1 hmin
      omega

/-- Witness for C5 at concrete inputs: register `7` and constant `3`
both round-trip, and the raw encodings `5` and `-4` decode as a
register and the constant of index `3` respectively. -/
theorem ExecProvider.encoding_spec_witness :
    (ExecProvider.from_register ⟨7⟩).decode = .Register ⟨7⟩ ∧
    (∃ p, ExecProvider.from_immediate ⟨3⟩ = some p ∧ p.decode = .Immediate ⟨3⟩) ∧
    (∃ r, ExecProvider.decode ⟨5⟩ = .Register r) ∧
    ExecProvider.decode ⟨-4⟩ = .Immediate ⟨3⟩ := by
  refine ⟨ExecProvider.encoding_spec.1 ⟨7⟩ (by decide), ⟨⟨-4⟩, ?_, ?_⟩, ?_, ?_⟩
  · decide
  · exact ExecProvider.encoding_spec.2.1 ⟨3⟩ ⟨-4⟩ (by decide)
  · exact ExecProvider.encoding_spec.2.2.1 5 (by decide)
  · have h := ExecProvider.encoding_spec.2.2.2 (-4) (by decide) (by decide)
    simpa using h

/-- C7: pinning the same label twice through `pin_label` fails (the
second pin is rejected), while `try_pin_label` on an already pinned
label is a no-op that leaves the pinned target unchanged. -/
theorem LabelRegistry.pin_label_spec :
    (∀ (reg : LabelRegistry) (label pc pc2 : Nat) (reg2 : LabelRegistry),
      reg.pin_label label pc = some reg2 →
      reg2.pin_label label pc2 = none)
    ∧ (∀ (reg : LabelRegistry) (label target pc : Nat),
      reg.get? label = some (.Pinned target) →
      reg.try_pin_label label pc = reg) := by
  constructor
  · intro reg label pc pc2 reg2 h
    unfold LabelRegistry.pin_label at h ⊢
    match hget : reg.get? label with
    | none => rw [hget] at h; cases h
    | some (.Pinned t) => rw [hget] at h; cases h
    | some (.Unresolved u) =>
      rw [hget] at h
      cases h
      have hlt : label < reg.length := by
        have := List.get?_eq_some.mp hget
        exact this.1
      simp [List.get?_eq_getElem?, List.getElem?_set, hlt]
  · intro reg label target pc h
    unfold LabelRegistry.try_pin_label
    rw [h]

/-- Witness for C7 at a concrete registry: pinning label `0` of a fresh
one-label registry succeeds, re-pinning fails, and `try_pin_label` on
the pinned registry leaves it unchanged. -/
theorem LabelRegistry.pin_label_spec_witness :
    LabelRegistry.pin_label [LabelState.Unresolved []] 0 4 =
      some [LabelState.Pinned 4] ∧
    LabelRegistry.pin_label [LabelState.Pinned 4] 0 9 = none ∧
    LabelRegistry.try_pin_label [LabelState.Pinned 4] 0 9 =
      [LabelState.Pinned 4] := by
  refine ⟨by decide, ?_, ?_⟩
  · exact LabelRegistry.pin_label_spec.1 [LabelState.Unresolved []] 0 4 9
      [LabelState.Pinned 4] (by decide)
  · exact LabelRegistry.pin_label_spec.2 [LabelState.Pinned 4] 0 4 9 (by decide)

theorem dedupLookup_mem {d : List (List ExecProvider × ExecProviderSlice)}
    {k : List ExecProvider} {s : ExecProviderSlice}
    (h : dedupLookup d k = some s) : (k, s) ∈ d := by
  induction d with
  | nil => cases h
  | cons e rest ih =>
    obtain ⟨k2, s2⟩ := e
    unfold dedupLookup at h
    split at h
    case isTrue heq =>
      cases h
      subst heq
      exact List.mem_cons_self _ _
    case isFalse =>
      exact List.mem_cons_of_mem _ (ih h)

theorem resolve_append_stable (providers xs : List ExecProvider)
    (s : ExecProviderSlice) (h : s.first + s.len ≤ providers.length) :
    ((providers ++ xs).drop s.first).take s.len =
      (providers.drop s.first).take s.len := by
  rw [List.drop_append_eq_append_drop, List.take_append_eq_append_take]
  have h1 : s.first - providers.length = 0 := by omega
  have h2 : s.len - (providers.drop s.first).length = 0 := by
    rw [List.length_drop]; omega
  rw [h1, h2]
  simp

theorem alloc_some_spec {a : DedupProviderSliceArena} {xs : List ExecProvider}
    {s1 : ExecProviderSlice} {a1 : DedupProviderSliceArena}
    (hwf : ArenaWF a) (h : a.alloc xs = some (s1, a1)) :
    ArenaWF a1 ∧ a1.resolve s1 = xs ∧
      s1.first + s1.len ≤ a1.providers.length ∧
      dedupLookup a1.dedup xs = some s1 := by
  unfold DedupProviderSliceArena.alloc at h
  match hlook : dedupLookup a.dedup xs with
  | some s =>
    simp only [hlook] at h
    obtain ⟨rfl, rfl⟩ := h
    have hw := hwf _ (dedupLookup_mem hlook)
    exact ⟨hwf, hw.2, hw.1, hlook⟩
  | none =>
    simp only [hlook] at h
    split at h
    · simp only [Option.some.injEq, Prod.mk.injEq] at h
      obtain ⟨hs1, ha1⟩ := h
      subst hs1 ha1
      refine ⟨?_, ?_, ?_, ?_⟩
      · intro e he
        rcases List.mem_cons.mp he with rfl | he
        · constructor
          · simp [DedupProviderSliceArena.resolve]
          · simp [DedupProviderSliceArena.resolve]
        · have hw := hwf _ he
          constructor
          · calc e.2.first + e.2.len ≤ a.providers.length := hw.1
              _ ≤ (a.providers ++ xs).length := by simp
          · show ((a.providers ++ xs).drop e.2.first).take e.2.len = e.1
            rw [resolve_append_stable _ _ _ hw.1]
            exact hw.2
      · show ((a.providers ++ xs).drop a.providers.length).take xs.length = xs
        rw [List.drop_left, List.take_length]
      · simp
      · show dedupLookup ((xs, _) :: a.dedup) xs = _
        unfold dedupLookup
        rw [if_pos rfl]
    · cases h

/-- C6: the interning law of the deduplicating provider-slice arena:
two allocations in the same arena yield equal slices if and only if the
allocated sequences are elementwise equal, and resolving an allocated
slice returns exactly the allocated sequence.  The arena is assumed
well-formed (`ArenaWF`), which holds for the empty arena and is
preserved by every allocation. -/
theorem DedupProviderSliceArena.alloc_interning_law
    (a : DedupProviderSliceArena) (xs ys : List ExecProvider)
    (s1 s2 : ExecProviderSlice) (a1 a2 : DedupProviderSliceArena)
    (hwf : ArenaWF a)
    (h1 : a.alloc xs = some (s1, a1)) (h2 : a1.alloc ys = some (s2, a2)) :
    ((s1 = s2) ↔ xs = ys) ∧ a1.resolve s1 = xs ∧ a2.resolve s2 = ys := by
  obtain ⟨hwf1, hres1, hbound1, hlook1⟩ := alloc_some_spec hwf h1
  obtain ⟨hwf2, hres2, hbound2, hlook2⟩ := alloc_some_spec hwf1 h2
  refine ⟨⟨?_, ?_⟩, hres1, hres2⟩
  · intro hs
    unfold DedupProviderSliceArena.alloc at h2
    match hlook : dedupLookup a1.dedup ys with
    | some s =>
      simp only [hlook] at h2
      obtain ⟨rfl, rfl⟩ := h2
      rw [← hres1, hs]
      exact hres2
    | none =>
      simp only [hlook] at h2
      split at h2
      · simp only [Option.some.injEq, Prod.mk.injEq] at h2
        obtain ⟨hs2, ha2⟩ := h2
        rw [hs, ← hs2] at hbound1 hres1
        simp only at hbound1
        have hlen0 : ys.length = 0 := by omega
        unfold DedupProviderSliceArena.resolve at hres1
        simp only [hlen0, List.take_zero] at hres1
        rw [← hres1]
        exact (List.length_eq_zero.mp hlen0).symm
      · cases h2
  · intro hxy
    subst hxy
    unfold DedupProviderSliceArena.alloc at h2
    simp only [hlook1, Option.some.injEq, Prod.mk.injEq] at h2
    exact h2.1

/-- Witness for C6 at concrete inputs: allocating two distinct singleton
sequences in the empty arena yields distinct slices that each resolve
back to their sequence. -/
theorem DedupProviderSliceArena.alloc_interning_law_witness :
    ∃ s1 s2 a1 a2,
      DedupProviderSliceArena.empty.alloc [ExecProvider.mk 1] = some (s1, a1) ∧
      a1.alloc [ExecProvider.mk 2] = some (s2, a2) ∧
      s1 ≠ s2 ∧ a1.resolve s1 = [ExecProvider.mk 1] ∧
      a2.resolve s2 = [ExecProvider.mk 2] := by
  refine ⟨⟨0, 1⟩, ⟨1, 1⟩, ⟨[([⟨1⟩], ⟨0, 1⟩)], [⟨1⟩]⟩,
    ⟨[([⟨2⟩], ⟨1, 1⟩), ([⟨1⟩], ⟨0, 1⟩)], [⟨1⟩, ⟨2⟩]⟩, rfl, rfl, ?_, ?_, ?_⟩
  · have h := DedupProviderSliceArena.alloc_interning_law
      DedupProviderSliceArena.empty [⟨1⟩] [⟨2⟩] ⟨0, 1⟩ ⟨1, 1⟩
      ⟨[([⟨1⟩], ⟨0, 1⟩)], [⟨1⟩]⟩
      ⟨[([⟨2⟩], ⟨1, 1⟩), ([⟨1⟩], ⟨0, 1⟩)], [⟨1⟩, ⟨2⟩]⟩
      (by intro e he; simp [DedupProviderSliceArena.empty] at he) rfl rfl
    intro hcontra
    exact absurd (h.1.mp hcontra) (by decide)
  · rfl
  · rfl

theorem toList_get? (results : IrRegisterSlice) (k : Nat) (r : IrRegister) :
    results.toList.get? k = some r ↔
      k < results.len ∧ r = results.first.add k := by
  unfold IrRegisterSlice.toList
  rw [List.get?_map]
  by_cases h : k < results.len
  · rw [List.get?_range h]
    simp [h, eq_comm]
  · rw [List.get?_eq_none.mpr (by simpa using h)]
    simp [h]

theorem tci_mem_iff (results : IrRegisterSlice) (inputs : List IrProvider)
    (x : Nat × (IrRegister × IrProvider)) :
    x ∈ TrueCopies.true_copies_iter results inputs ↔
      x.1 < results.len ∧ inputs.get? x.1 = some x.2.2 ∧
        x.2.1 = results.first.add x.1 ∧
        isTrueCopy x.2.1 x.2.2 = true := by
  unfold TrueCopies.true_copies_iter
  rw [List.mem_filter, List.mem_enum_iff_get?, List.get?_zip_eq_some]
  rw [toList_get?]
  constructor
  · rintro ⟨⟨⟨hk, hr⟩, hi⟩, hp⟩
    exact ⟨hk, hi, hr, hp⟩
  · rintro ⟨hk, hi, hr, hp⟩
    exact ⟨⟨⟨hk, hr⟩, hi⟩, hp⟩

theorem isTrueCopyAt_iff_mem (results : IrRegisterSlice)
    (inputs : List IrProvider) (k : Nat) :
    isTrueCopyAt results inputs k = true ↔
      ∃ input, (k, (results.first.add k, input)) ∈
        TrueCopies.true_copies_iter results inputs := by
  unfold isTrueCopyAt
  rw [Bool.and_eq_true, decide_eq_true_iff]
  constructor
  · rintro ⟨hk, hmatch⟩
    match hget : inputs.get? k with
    | some input =>
      rw [hget] at hmatch
      exact ⟨input, (tci_mem_iff _ _ _).mpr ⟨hk, hget, rfl, hmatch⟩⟩
    | none => rw [hget] at hmatch; cases hmatch
  · rintro ⟨input, hmem⟩
    obtain ⟨hk, hget, -, hp⟩ := (tci_mem_iff _ _ _).mp hmem
    refine ⟨hk, ?_⟩
    rw [hget]
    exact hp

theorem fst_le_of_mem_enumFrom {α : Type _} {x : Nat × α} {l : List α}
    {n : Nat} (h : x ∈ List.enumFrom n l) : n ≤ x.1 := by
  induction l generalizing n with
  | nil => cases h
  | cons a t ih =>
    rcases List.mem_cons.mp h with rfl | h
    · simp
    · have := ih h
      omega

theorem pairwise_fst_lt_enumFrom {α : Type _} (n : Nat) (l : List α) :
    (List.enumFrom n l).Pairwise (fun a b => a.1 < b.1) := by
  induction l generalizing n with
  | nil => simp
  | cons a t ih =>
    refine List.Pairwise.cons ?_ (ih (n + 1))
    intro x hx
    have := fst_le_of_mem_enumFrom hx
    simp only
    omega

theorem tci_pairwise (results : IrRegisterSlice) (inputs : List IrProvider) :
    (TrueCopies.true_copies_iter results inputs).Pairwise
      (fun a b => a.1 < b.1) := by
  unfold TrueCopies.true_copies_iter
  exact (pairwise_fst_lt_enumFrom 0 _).sublist (List.filter_sublist _) |>.imp id
    |>.imp id

theorem getLast_fst_max {α : Type _} {l : List (Nat × α)} (hne : l ≠ [])
    (hp : l.Pairwise fun a b => a.1 < b.1) :
    ∀ x ∈ l, x.1 ≤ (l.getLast hne).1 := by
  induction l with
  | nil => cases hne rfl
  | cons a t ih =>
    intro x hx
    cases t with
    | nil =>
      rcases List.mem_cons.mp hx with rfl | hx
      · simp
      · cases hx
    | cons b t2 =>
      rw [List.getLast_cons (by simp)]
      obtain ⟨ha, hp2⟩ := List.pairwise_cons.mp hp
      rcases List.mem_cons.mp hx with rfl | hx
      · have hab := ha b (by simp)
        have hb := ih (by simp) hp2 b (by simp)
        omega
      · exact ih (by simp) hp2 x hx

theorem head_fst_min {α : Type _} {e : Nat × α} {rest : List (Nat × α)}
    (hp : (e :: rest).Pairwise fun a b => a.1 < b.1) :
    ∀ x ∈ e :: rest, e.1 ≤ x.1 := by
  intro x hx
  rcases List.mem_cons.mp hx with rfl | hx
  · exact le_refl _
  · exact le_of_lt ((List.pairwise_cons.mp hp).1 x hx)

theorem tci_nil_iff (results : IrRegisterSlice) (inputs : List IrProvider)
    (hlen : inputs.length = results.len) :
    TrueCopies.true_copies_iter results inputs = [] ↔
      ∀ k < results.len,
        inputs.get? k = some (.Register (results.first.add k)) := by
  constructor
  · intro h k hk
    match hget : inputs.get? k with
    | none =>
      exfalso
      have := List.get?_eq_none.mp hget
      omega
    | some input =>
      cases input with
      | Immediate v =>
        exfalso
        have hmem : (k, (results.first.add k, IrProvider.Immediate v)) ∈
            TrueCopies.true_copies_iter results inputs :=
          (tci_mem_iff _ _ _).mpr ⟨hk, hget, rfl, rfl⟩
        rw [h] at hmem
        cases hmem
      | Register r =>
        by_cases hr : results.first.add k = r
        · rw [hr]
        · exfalso
          have hmem : (k, (results.first.add k, IrProvider.Register r)) ∈
              TrueCopies.true_copies_iter results inputs :=
            (tci_mem_iff _ _ _).mpr
              ⟨hk, hget, rfl, by simp [isTrueCopy, hr]⟩
          rw [h] at hmem
          cases hmem
  · intro h
    rw [List.eq_nil_iff_forall_not_mem]
    intro x hx
    obtain ⟨hk, hget, hr, hp⟩ := (tci_mem_iff _ _ _).mp hx
    rw [h x.1 hk] at hget
    have hx22 := Option.some_inj.mp hget
    rw [hr, ← hx22] at hp
    simp [isTrueCopy] at hp

theorem tci_all_of_length_eq (results : IrRegisterSlice)
    (inputs : List IrProvider) (hlen : inputs.length = results.len)
    (h : (TrueCopies.true_copies_iter results inputs).length = results.len) :
    ∀ k < results.len, isTrueCopyAt results inputs k = true := by
  intro k hk
  have hzl : (results.toList.zip inputs).length = results.len := by
    simp [IrRegisterSlice.toList, hlen]
  have hen : ((results.toList.zip inputs).enum).length = results.len := by
    simpa using hzl
  have key : ∀ (l : List (Nat × (IrRegister × IrProvider)))
      (p : Nat × (IrRegister × IrProvider) → Bool),
      (l.filter p).length = l.length → ∀ e ∈ l, p e = true := by
    intro l p hl
    simpa using hl
  have hall : ∀ e ∈ (results.toList.zip inputs).enum,
      isTrueCopy e.2.1 e.2.2 = true := by
    have hfl : (((results.toList.zip inputs).enum).filter
        (fun e => isTrueCopy e.2.1 e.2.2)).length =
        ((results.toList.zip inputs).enum).length := by
      unfold TrueCopies.true_copies_iter at h
      rw [h, hen]
    exact key _ _ hfl
  match hget : inputs.get? k with
  | none =>
    exfalso
    have := List.get?_eq_none.mp hget
    omega
  | some input =>
    have hmem : (k, (results.first.add k, input)) ∈
        (results.toList.zip inputs).enum := by
      rw [List.mem_enum_iff_get?, List.get?_zip_eq_some]
      exact ⟨(toList_get? _ _ _).mpr ⟨hk, rfl⟩, hget⟩
    have hp := hall _ hmem
    unfold isTrueCopyAt
    rw [hget]
    simp [hk, hp]

theorem irDedupLookup_mem {d : List (List IrProvider × IrProviderSlice)}
    {k : List IrProvider} {s : IrProviderSlice}
    (h : irDedupLookup d k = some s) : (k, s) ∈ d := by
  induction d with
  | nil => cases h
  | cons e rest ih =>
    obtain ⟨k2, s2⟩ := e
    unfold irDedupLookup at h
    split at h
    case isTrue heq =>
      cases h
      subst heq
      exact List.mem_cons_self _ _
    case isFalse =>
      exact List.mem_cons_of_mem _ (ih h)

theorem ir_resolve_append_stable (providers xs : List IrProvider)
    (s : IrProviderSlice) (h : s.first + s.len ≤ providers.length) :
    ((providers ++ xs).drop s.first).take s.len =
      (providers.drop s.first).take s.len := by
  rw [List.drop_append_eq_append_drop, List.take_append_eq_append_take]
  have h1 : s.first - providers.length = 0 := by omega
  have h2 : s.len - (providers.drop s.first).length = 0 := by
    rw [List.length_drop]; omega
  rw [h1, h2]
  simp

theorem ir_alloc_spec {a : ProviderSliceArena} {xs : List IrProvider}
    (hwf : IrArenaWF a) :
    IrArenaWF (a.alloc xs).2 ∧ (a.alloc xs).2.resolve (a.alloc xs).1 = xs := by
  unfold ProviderSliceArena.alloc
  match hlook : irDedupLookup a.dedup xs with
  | some s =>
    have hw := hwf _ (irDedupLookup_mem hlook)
    exact ⟨hwf, hw.2⟩
  | none =>
    dsimp only
    constructor
    · intro e he
      rcases List.mem_cons.mp he with rfl | he
      · constructor
        · simp [ProviderSliceArena.resolve]
        · simp [ProviderSliceArena.resolve]
      · have hw := hwf _ he
        constructor
        · calc e.2.first + e.2.len ≤ a.providers.length := hw.1
            _ ≤ (a.providers ++ xs).length := by simp
        · show ((a.providers ++ xs).drop e.2.first).take e.2.len = e.1
          rw [ir_resolve_append_stable _ _ _ hw.1]
          exact hw.2
    · show ((a.providers ++ xs).drop a.providers.length).take xs.length = xs
      rw [List.drop_left, List.take_length]

theorem ir_resolve_skip_take (a : ProviderSliceArena) (s : IrProviderSlice)
    (F m : Nat) :
    a.resolve ((s.skip F).take m) = ((a.resolve s).drop F).take m := by
  unfold ProviderSliceArena.resolve IrProviderSlice.skip IrProviderSlice.take
  dsimp only
  rw [List.drop_take, List.take_take, List.drop_drop]

theorem isTrueCopyAt_of_mem {results : IrRegisterSlice}
    {inputs : List IrProvider} {x : Nat × (IrRegister × IrProvider)}
    (hx : x ∈ TrueCopies.true_copies_iter results inputs) :
    isTrueCopyAt results inputs x.1 = true := by
  obtain ⟨hk, hget, hr, hp⟩ := (tci_mem_iff _ _ _).mp hx
  unfold isTrueCopyAt
  rw [hget, hr] at *
  simp only [decide_eq_true_eq] at *
  simp [hk, hp]

theorem analyze_none_iff (arena : ProviderSliceArena)
    (results : IrRegisterSlice) (inputs : List IrProvider)
    (hlen : inputs.length = results.len) :
    (TrueCopies.analyze arena results inputs).1 = .None ↔
      ∀ k < results.len,
        inputs.get? k = some (.Register (results.first.add k)) := by
  rw [← tci_nil_iff results inputs hlen]
  match htci : TrueCopies.true_copies_iter results inputs with
  | [] =>
    simp only [TrueCopies.analyze, htci]
  | [x] =>
    obtain ⟨k, r, i⟩ := x
    simp only [TrueCopies.analyze, htci]
    simp
  | e :: e2 :: rest =>
    simp only [TrueCopies.analyze, htci]
    obtain ⟨sl2, ar2⟩ := arena.alloc ((inputs.drop e.1).take
      (((e :: e2 :: rest).getLast (by simp)).1 + 1 - e.1))
    simp

theorem analyze_single_iff (arena : ProviderSliceArena)
    (results : IrRegisterSlice) (inputs : List IrProvider) :
    (∃ r i, (TrueCopies.analyze arena results inputs).1 = .Single r i) ↔
      TrueCopies.count_true_copies results inputs = 1 := by
  unfold TrueCopies.count_true_copies
  match htci : TrueCopies.true_copies_iter results inputs with
  | [] =>
    simp only [TrueCopies.analyze, htci]
    simp
  | [x] =>
    obtain ⟨k, r, i⟩ := x
    simp only [TrueCopies.analyze, htci]
    simp
  | e :: e2 :: rest =>
    simp only [TrueCopies.analyze, htci]
    obtain ⟨sl2, ar2⟩ := arena.alloc ((inputs.drop e.1).take
      (((e :: e2 :: rest).getLast (by simp)).1 + 1 - e.1))
    simp

theorem analyze_single_unique (arena : ProviderSliceArena)
    (results : IrRegisterSlice) (inputs : List IrProvider)
    (r : IrRegister) (i : IrProvider)
    (h : (TrueCopies.analyze arena results inputs).1 = .Single r i) :
    ∃ k, isTrueCopyAt results inputs k = true ∧
      r = results.first.add k ∧ inputs.get? k = some i ∧
      ∀ j, isTrueCopyAt results inputs j = true → j = k := by
  match htci : TrueCopies.true_copies_iter results inputs with
  | [] =>
    rw [show (TrueCopies.analyze arena results inputs).1 = .None from by
      simp only [TrueCopies.analyze, htci]] at h
    cases h
  | [x] =>
    have hx : (TrueCopies.analyze arena results inputs).1 =
        .Single x.2.1 x.2.2 := by
      obtain ⟨k2, xr, xi⟩ := x
      simp only [TrueCopies.analyze, htci]
    rw [hx] at h
    cases h
    have hmem : x ∈ TrueCopies.true_copies_iter results inputs := by
      rw [htci]; simp
    obtain ⟨hk, hget, hr, hp⟩ := (tci_mem_iff _ _ _).mp hmem
    refine ⟨x.1, isTrueCopyAt_of_mem hmem, hr, hget, ?_⟩
    intro j hj
    obtain ⟨input, hjmem⟩ := (isTrueCopyAt_iff_mem _ _ _).mp hj
    rw [htci] at hjmem
    rw [List.mem_singleton] at hjmem
    have := congrArg Prod.fst hjmem
    simpa using this
  | e :: e2 :: rest =>
    exfalso
    have := h
    simp only [TrueCopies.analyze, htci] at this
    obtain ⟨sl2, ar2⟩ := arena.alloc ((inputs.drop e.1).take
      (((e :: e2 :: rest).getLast (by simp)).1 + 1 - e.1))
    simp at this

theorem analyze_many_spec (arena : ProviderSliceArena)
    (results : IrRegisterSlice) (inputs : List IrProvider)
    (hwf : IrArenaWF arena)
    (h2 : 2 ≤ TrueCopies.count_true_copies results inputs) :
    ∃ F L rs sl arena2,
      F ≤ L ∧ isTrueCopyAt results inputs F = true ∧
      isTrueCopyAt results inputs L = true ∧
      (∀ k, isTrueCopyAt results inputs k = true → F ≤ k ∧ k ≤ L) ∧
      TrueCopies.analyze arena results inputs = (.Many rs sl, arena2) ∧
      rs = ⟨results.first.add F, L + 1 - F⟩ ∧
      arena2.resolve sl = (inputs.drop F).take (L + 1 - F) := by
  unfold TrueCopies.count_true_copies at h2
  match htci : TrueCopies.true_copies_iter results inputs with
  | [] => rw [htci] at h2; simp at h2
  | [x] => rw [htci] at h2; simp at h2
  | e :: e2 :: rest =>
    have hpw := tci_pairwise results inputs
    rw [htci] at hpw
    have hlast_mem : (e :: e2 :: rest).getLast (by simp) ∈ e :: e2 :: rest :=
      List.getLast_mem _
    have hhead_mem : e ∈ e :: e2 :: rest := by simp
    have hmem_tci : ∀ x ∈ e :: e2 :: rest,
        x ∈ TrueCopies.true_copies_iter results inputs := by
      intro x hx; rw [htci]; exact hx
    set L := ((e :: e2 :: rest).getLast (by simp)).1 with hL
    set F := e.1 with hF
    have hFL : F ≤ L := getLast_fst_max (by simp) hpw e hhead_mem
    have hLlt : L < results.len :=
      ((tci_mem_iff _ _ _).mp (hmem_tci _ hlast_mem)).1
    have hbounds : ∀ k, isTrueCopyAt results inputs k = true →
        F ≤ k ∧ k ≤ L := by
      intro k hk
      obtain ⟨input, hkmem⟩ := (isTrueCopyAt_iff_mem _ _ _).mp hk
      rw [htci] at hkmem
      exact ⟨head_fst_min hpw _ hkmem, getLast_fst_max (by simp) hpw _ hkmem⟩
    have hsub : results.sub_slice F (L + 1) =
        some ⟨results.first.add F, L + 1 - F⟩ := by
      unfold IrRegisterSlice.sub_slice
      rw [if_pos ⟨by omega, by omega⟩]
    obtain ⟨ha1, ha2⟩ :=
      @ir_alloc_spec arena ((inputs.drop F).take (L + 1 - F)) hwf
    refine ⟨F, L, ⟨results.first.add F, L + 1 - F⟩,
      (arena.alloc ((inputs.drop F).take (L + 1 - F))).1,
      (arena.alloc ((inputs.drop F).take (L + 1 - F))).2,
      hFL, isTrueCopyAt_of_mem (hmem_tci _ hhead_mem),
      isTrueCopyAt_of_mem (hmem_tci _ hlast_mem), hbounds, ?_, rfl, ha2⟩
    simp only [TrueCopies.analyze, htci, ← hF, ← hL, hsub, Option.getD_some]

theorem IrRegister.add_zero (r : IrRegister) : r.add 0 = r := by
  cases r <;> rfl

theorem analyze_slice_none_iff (arena : ProviderSliceArena)
    (results : IrRegisterSlice) (inputs : IrProviderSlice)
    (hlen : (arena.resolve inputs).length = results.len) :
    TrueCopies.analyze_slice arena results inputs = .None ↔
      ∀ k < results.len,
        (arena.resolve inputs).get? k =
          some (.Register (results.first.add k)) := by
  rw [← tci_nil_iff results (arena.resolve inputs) hlen]
  match htci : TrueCopies.true_copies_iter results (arena.resolve inputs) with
  | [] =>
    simp only [TrueCopies.analyze_slice, htci]
  | [x] =>
    obtain ⟨k, r, i⟩ := x
    simp only [TrueCopies.analyze_slice, htci]
    simp
  | e :: e2 :: rest =>
    simp only [TrueCopies.analyze_slice, htci]
    split <;> simp

theorem analyze_slice_single_iff (arena : ProviderSliceArena)
    (results : IrRegisterSlice) (inputs : IrProviderSlice) :
    (∃ r i, TrueCopies.analyze_slice arena results inputs = .Single r i) ↔
      TrueCopies.count_true_copies results (arena.resolve inputs) = 1 := by
  unfold TrueCopies.count_true_copies
  match htci : TrueCopies.true_copies_iter results (arena.resolve inputs) with
  | [] =>
    simp only [TrueCopies.analyze_slice, htci]
    simp
  | [x] =>
    obtain ⟨k, r, i⟩ := x
    simp only [TrueCopies.analyze_slice, htci]
    simp
  | e :: e2 :: rest =>
    simp only [TrueCopies.analyze_slice, htci]
    split <;> simp

theorem analyze_slice_single_unique (arena : ProviderSliceArena)
    (results : IrRegisterSlice) (inputs : IrProviderSlice)
    (r : IrRegister) (i : IrProvider)
    (h : TrueCopies.analyze_slice arena results inputs = .Single r i) :
    ∃ k, isTrueCopyAt results (arena.resolve inputs) k = true ∧
      r = results.first.add k ∧
      (arena.resolve inputs).get? k = some i ∧
      ∀ j, isTrueCopyAt results (arena.resolve inputs) j = true → j = k := by
  match htci : TrueCopies.true_copies_iter results (arena.resolve inputs) with
  | [] =>
    rw [show TrueCopies.analyze_slice arena results inputs = .None from by
      simp only [TrueCopies.analyze_slice, htci]] at h
    cases h
  | [x] =>
    have hx : TrueCopies.analyze_slice arena results inputs =
        .Single x.2.1 x.2.2 := by
      obtain ⟨k2, xr, xi⟩ := x
      simp only [TrueCopies.analyze_slice, htci]
    rw [hx] at h
    cases h
    have hmem : x ∈ TrueCopies.true_copies_iter results
        (arena.resolve inputs) := by
      rw [htci]; simp
    obtain ⟨hk, hget, hr, hp⟩ := (tci_mem_iff _ _ _).mp hmem
    refine ⟨x.1, isTrueCopyAt_of_mem hmem, hr, hget, ?_⟩
    intro j hj
    obtain ⟨input, hjmem⟩ := (isTrueCopyAt_iff_mem _ _ _).mp hj
    rw [htci] at hjmem
    rw [List.mem_singleton] at hjmem
    have := congrArg Prod.fst hjmem
    simpa using this
  | e :: e2 :: rest =>
    exfalso
    have hcontra := h
    simp only [TrueCopies.analyze_slice, htci] at hcontra
    split at hcontra <;> simp at hcontra

theorem analyze_slice_many_spec (arena : ProviderSliceArena)
    (results : IrRegisterSlice) (inputs : IrProviderSlice)
    (hlen : (arena.resolve inputs).length = results.len)
    (h2 : 2 ≤ TrueCopies.count_true_copies results (arena.resolve inputs)) :
    ∃ F L rs sl,
      F ≤ L ∧ isTrueCopyAt results (arena.resolve inputs) F = true ∧
      isTrueCopyAt results (arena.resolve inputs) L = true ∧
      (∀ k, isTrueCopyAt results (arena.resolve inputs) k = true →
        F ≤ k ∧ k ≤ L) ∧
      TrueCopies.analyze_slice arena results inputs = .Many rs sl ∧
      rs = ⟨results.first.add F, L + 1 - F⟩ ∧
      arena.resolve sl =
        ((arena.resolve inputs).drop F).take (L + 1 - F) := by
  unfold TrueCopies.count_true_copies at h2
  match htci : TrueCopies.true_copies_iter results (arena.resolve inputs) with
  | [] => rw [htci] at h2; simp at h2
  | [x] => rw [htci] at h2; simp at h2
  | e :: e2 :: rest =>
    have hpw := tci_pairwise results (arena.resolve inputs)
    rw [htci] at hpw
    have hlast_mem : (e :: e2 :: rest).getLast (by simp) ∈ e :: e2 :: rest :=
      List.getLast_mem _
    have hhead_mem : e ∈ e :: e2 :: rest := by simp
    have hmem_tci : ∀ x ∈ e :: e2 :: rest,
        x ∈ TrueCopies.true_copies_iter results (arena.resolve inputs) := by
      intro x hx; rw [htci]; exact hx
    set L := ((e :: e2 :: rest).getLast (by simp)).1 with hL
    set F := e.1 with hF
    have hFL : F ≤ L := getLast_fst_max (by simp) hpw e hhead_mem
    have hLlt : L < results.len :=
      ((tci_mem_iff _ _ _).mp (hmem_tci _ hlast_mem)).1
    have hbounds : ∀ k, isTrueCopyAt results (arena.resolve inputs) k = true →
        F ≤ k ∧ k ≤ L := by
      intro k hk
      obtain ⟨input, hkmem⟩ := (isTrueCopyAt_iff_mem _ _ _).mp hk
      rw [htci] at hkmem
      exact ⟨head_fst_min hpw _ hkmem, getLast_fst_max (by simp) hpw _ hkmem⟩
    by_cases hcase : (e :: e2 :: rest).length = results.len
    · have hall := tci_all_of_length_eq results (arena.resolve inputs) hlen
        (by rw [htci]; exact hcase)
      have hlenpos : 0 < results.len := by
        have : 2 ≤ (e :: e2 :: rest).length := by simp
        omega
      have hF0 : F = 0 := by
        have := (hbounds 0 (hall 0 hlenpos)).1
        omega
      have hLmax : L = results.len - 1 := by
        have h1 := (hbounds (results.len - 1)
          (hall (results.len - 1) (by omega))).2
        omega
      refine ⟨F, L, results, inputs, hFL,
        isTrueCopyAt_of_mem (hmem_tci _ hhead_mem),
        isTrueCopyAt_of_mem (hmem_tci _ hlast_mem), hbounds, ?_, ?_, ?_⟩
      · simp only [TrueCopies.analyze_slice, htci]
        rw [if_pos hcase]
      · rw [hF0, hLmax, IrRegister.add_zero]
        have : results.len - 1 + 1 - 0 = results.len := by omega
        rw [this]
      · rw [hF0, hLmax]
        have : results.len - 1 + 1 - 0 = results.len := by omega
        rw [this, List.drop_zero, ← hlen, List.take_length]
    · have hsub : results.sub_slice F (L + 1) =
          some ⟨results.first.add F, L + 1 - F⟩ := by
        unfold IrRegisterSlice.sub_slice
        rw [if_pos ⟨by omega, by omega⟩]
      refine ⟨F, L, ⟨results.first.add F, L + 1 - F⟩,
        (inputs.skip F).take (L + 1 - F), hFL,
        isTrueCopyAt_of_mem (hmem_tci _ hhead_mem),
        isTrueCopyAt_of_mem (hmem_tci _ hlast_mem), hbounds, ?_, rfl,
        ir_resolve_skip_take arena inputs F (L + 1 - F)⟩
      simp only [TrueCopies.analyze_slice, htci, ← hF, ← hL, hsub,
        Option.getD_some]
      rw [if_neg hcase]

/-- C1: the copy analyzer post-condition, for both `TrueCopies::analyze`
(over a provider list) and `TrueCopies::analyze_slice` (over an interned
provider slice): the result is `None` iff every input is a register
equal to its corresponding result register; it is `Single` iff exactly
one position is a true copy (and then of that unique position); and with
two or more true copies it is `Many` whose results and inputs are the
original vectors trimmed at head and tail to the window `[F, L]` spanned
by the first and last true-copy positions, preserving interior no-op
positions, so both ends of the `Many` form are true copies. -/
theorem TrueCopies.analyze_characterization
    (arena : ProviderSliceArena) (results : IrRegisterSlice)
    (inputs : List IrProvider) (inputsSlice : IrProviderSlice)
    (hwf : IrArenaWF arena)
    (hlen : inputs.length = results.len)
    (hlenS : (arena.resolve inputsSlice).length = results.len) :
    ((TrueCopies.analyze arena results inputs).1 = .None ↔
      ∀ k < results.len,
        inputs.get? k = some (.Register (results.first.add k)))
    ∧ ((∃ r i, (TrueCopies.analyze arena results inputs).1 = .Single r i) ↔
        TrueCopies.count_true_copies results inputs = 1)
    ∧ (∀ r i, (TrueCopies.analyze arena results inputs).1 = .Single r i →
        ∃ k, isTrueCopyAt results inputs k = true ∧
          r = results.first.add k ∧ inputs.get? k = some i ∧
          ∀ j, isTrueCopyAt results inputs j = true → j = k)
    ∧ (2 ≤ TrueCopies.count_true_copies results inputs →
        ∃ F L rs sl arena2,
          F ≤ L ∧ isTrueCopyAt results inputs F = true ∧
          isTrueCopyAt results inputs L = true ∧
          (∀ k, isTrueCopyAt results inputs k = true → F ≤ k ∧ k ≤ L) ∧
          TrueCopies.analyze arena results inputs = (.Many rs sl, arena2) ∧
          rs = ⟨results.first.add F, L + 1 - F⟩ ∧
          arena2.resolve sl = (inputs.drop F).take (L + 1 - F))
    ∧ (TrueCopies.analyze_slice arena results inputsSlice = .None ↔
        ∀ k < results.len,
          (arena.resolve inputsSlice).get? k =
            some (.Register (results.first.add k)))
    ∧ ((∃ r i, TrueCopies.analyze_slice arena results inputsSlice =
          .Single r i) ↔
        TrueCopies.count_true_copies results (arena.resolve inputsSlice) = 1)
    ∧ (∀ r i, TrueCopies.analyze_slice arena results inputsSlice =
          .Single r i →
        ∃ k, isTrueCopyAt results (arena.resolve inputsSlice) k = true ∧
          r = results.first.add k ∧
          (arena.resolve inputsSlice).get? k = some i ∧
          ∀ j, isTrueCopyAt results (arena.resolve inputsSlice) j = true →
            j = k)
    ∧ (2 ≤ TrueCopies.count_true_copies results
          (arena.resolve inputsSlice) →
        ∃ F L rs sl,
          F ≤ L ∧
          isTrueCopyAt results (arena.resolve inputsSlice) F = true ∧
          isTrueCopyAt results (arena.resolve inputsSlice) L = true ∧
          (∀ k, isTrueCopyAt results (arena.resolve inputsSlice) k = true →
            F ≤ k ∧ k ≤ L) ∧
          TrueCopies.analyze_slice arena results inputsSlice = .Many rs sl ∧
          rs = ⟨results.first.add F, L + 1 - F⟩ ∧
          arena.resolve sl =
            ((arena.resolve inputsSlice).drop F).take (L + 1 - F)) :=
  ⟨analyze_none_iff arena results inputs hlen,
    analyze_single_iff arena results inputs,
    fun r i h => analyze_single_unique arena results inputs r i h,
    fun h2 => analyze_many_spec arena results inputs hwf h2,
    analyze_slice_none_iff arena results inputsSlice hlenS,
    analyze_slice_single_iff arena results inputsSlice,
    fun r i h => analyze_slice_single_unique arena results inputsSlice r i h,
    fun h2 => analyze_slice_many_spec arena results inputsSlice hlenS h2⟩

/-- Witness for C1 at concrete inputs: for results `(x0, x1)` and inputs
`(x1, x1)` both analyzers report a single true copy. -/
theorem TrueCopies.analyze_characterization_witness :
    (∃ r i,
      (TrueCopies.analyze
        ⟨[([IrProvider.Register (IrRegister.Dynamic 1),
            IrProvider.Register (IrRegister.Dynamic 1)], ⟨0, 2⟩)],
          [IrProvider.Register (IrRegister.Dynamic 1),
            IrProvider.Register (IrRegister.Dynamic 1)]⟩
        ⟨IrRegister.Dynamic 0, 2⟩
        [IrProvider.Register (IrRegister.Dynamic 1),
          IrProvider.Register (IrRegister.Dynamic 1)]).1 = .Single r i)
    ∧ (∃ r i,
      TrueCopies.analyze_slice
        ⟨[([IrProvider.Register (IrRegister.Dynamic 1),
            IrProvider.Register (IrRegister.Dynamic 1)], ⟨0, 2⟩)],
          [IrProvider.Register (IrRegister.Dynamic 1),
            IrProvider.Register (IrRegister.Dynamic 1)]⟩
        ⟨IrRegister.Dynamic 0, 2⟩ ⟨0, 2⟩ = .Single r i) := by
  have h := TrueCopies.analyze_characterization
    ⟨[([IrProvider.Register (IrRegister.Dynamic 1),
        IrProvider.Register (IrRegister.Dynamic 1)], ⟨0, 2⟩)],
      [IrProvider.Register (IrRegister.Dynamic 1),
        IrProvider.Register (IrRegister.Dynamic 1)]⟩
    ⟨IrRegister.Dynamic 0, 2⟩
    [IrProvider.Register (IrRegister.Dynamic 1),
      IrProvider.Register (IrRegister.Dynamic 1)] ⟨0, 2⟩
    (by unfold IrArenaWF; decide) (by decide) (by decide)
  exact ⟨h.2.1.mpr (by decide), h.2.2.2.2.2.1.mpr (by decide)⟩

/-- C2: every branch emitted through `push_br` or `push_br_nez` pushes
exactly one instruction, selected by the number of true copies of the
results/inputs pairing: a plain branch with no true copies, a fused
single-copy branch with exactly one, and a fused multi-copy branch
otherwise. -/
theorem InstructionsBuilder.push_br_spec (b : InstructionsBuilder)
    (arena : ProviderSliceArena) (target : LabelRef)
    (condition : IrRegister) (results : IrRegisterSlice)
    (inputs : IrProviderSlice) :
    (∃ inst, (b.push_br arena target results inputs).2.insts =
        b.insts ++ [inst] ∧
      (TrueCopies.count_true_copies results (arena.resolve inputs) = 0 →
        inst = .Br target) ∧
      (TrueCopies.count_true_copies results (arena.resolve inputs) = 1 →
        (∃ result returned, inst = .BrCopy target result returned) ∨
        (∃ result returned, inst = .BrCopyImm target result returned)) ∧
      (2 ≤ TrueCopies.count_true_copies results (arena.resolve inputs) →
        ∃ rs sl, inst = .BrCopyMulti target rs sl))
    ∧ (∃ inst, (b.push_br_nez arena target condition results inputs).2.insts =
        b.insts ++ [inst] ∧
      (TrueCopies.count_true_copies results (arena.resolve inputs) = 0 →
        inst = .BrNez target condition) ∧
      (TrueCopies.count_true_copies results (arena.resolve inputs) = 1 →
        ∃ result returned, inst = .BrNezSingle target condition result returned) ∧
      (2 ≤ TrueCopies.count_true_copies results (arena.resolve inputs) →
        ∃ rs sl, inst = .BrNezMulti target condition rs sl)) := by
  unfold TrueCopies.count_true_copies
  match htci : TrueCopies.true_copies_iter results (arena.resolve inputs) with
  | [] =>
    have hsl : TrueCopies.analyze_slice arena results inputs = .None := by
      simp only [TrueCopies.analyze_slice, htci]
    constructor
    · refine ⟨.Br target, ?_, ?_, ?_, ?_⟩
      · simp only [InstructionsBuilder.push_br, hsl,
          InstructionsBuilder.push_inst]
      · intro _; rfl
      · intro hc; simp at hc
      · intro hc; simp at hc
    · refine ⟨.BrNez target condition, ?_, ?_, ?_, ?_⟩
      · simp only [InstructionsBuilder.push_br_nez, hsl,
          InstructionsBuilder.push_inst]
      · intro _; rfl
      · intro hc; simp at hc
      · intro hc; simp at hc
  | [x] =>
    have hsl : TrueCopies.analyze_slice arena results inputs =
        .Single x.2.1 x.2.2 := by
      obtain ⟨k2, xr, xi⟩ := x
      simp only [TrueCopies.analyze_slice, htci]
    constructor
    · match hxi : x.2.2 with
      | .Register returned =>
        refine ⟨.BrCopy target x.2.1 returned, ?_, ?_, ?_, ?_⟩
        · simp only [InstructionsBuilder.push_br, hsl, hxi,
            InstructionsBuilder.push_inst]
        · intro hc; simp at hc
        · intro _; exact Or.inl ⟨_, _, rfl⟩
        · intro hc; simp at hc
      | .Immediate returned =>
        refine ⟨.BrCopyImm target x.2.1 returned, ?_, ?_, ?_, ?_⟩
        · simp only [InstructionsBuilder.push_br, hsl, hxi,
            InstructionsBuilder.push_inst]
        · intro hc; simp at hc
        · intro _; exact Or.inr ⟨_, _, rfl⟩
        · intro hc; simp at hc
    · refine ⟨.BrNezSingle target condition x.2.1 x.2.2, ?_, ?_, ?_, ?_⟩
      · simp only [InstructionsBuilder.push_br_nez, hsl,
          InstructionsBuilder.push_inst]
      · intro hc; simp at hc
      · intro _; exact ⟨_, _, rfl⟩
      · intro hc; simp at hc
  | e :: e2 :: rest =>
    have hsl : ∃ rs sl,
        TrueCopies.analyze_slice arena results inputs = .Many rs sl := by
      simp only [TrueCopies.analyze_slice, htci]
      split
      · exact ⟨_, _, rfl⟩
      · exact ⟨_, _, rfl⟩
    obtain ⟨rs, sl, hmany⟩ := hsl
    constructor
    · refine ⟨.BrCopyMulti target rs sl, ?_, ?_, ?_, ?_⟩
      · simp only [InstructionsBuilder.push_br, hmany,
          InstructionsBuilder.push_inst]
      · intro hc; simp at hc
      · intro hc; simp at hc
      · intro _; exact ⟨_, _, rfl⟩
    · refine ⟨.BrNezMulti target condition rs sl, ?_, ?_, ?_, ?_⟩
      · simp only [InstructionsBuilder.push_br_nez, hmany,
          InstructionsBuilder.push_inst]
      · intro hc; simp at hc
      · intro hc; simp at hc
      · intro _; exact ⟨_, _, rfl⟩

/-- Witness for C2 at a concrete input: pushing a conditional branch
with exactly one true copy appends exactly one fused `BrNezSingle`
instruction to an empty builder. -/
theorem InstructionsBuilder.push_br_spec_witness :
    ∃ inst,
      (InstructionsBuilder.mk [] [] |>.push_br_nez
        ⟨[([IrProvider.Register (IrRegister.Dynamic 1)], ⟨0, 1⟩)],
          [IrProvider.Register (IrRegister.Dynamic 1)]⟩
        7 (IrRegister.Dynamic 5) ⟨IrRegister.Dynamic 0, 1⟩ ⟨0, 1⟩).2.insts =
        [inst] ∧
      ∃ result returned,
        inst = .BrNezSingle 7 (IrRegister.Dynamic 5) result returned := by
  obtain ⟨inst, hp, h0, h1, h2⟩ :=
    (InstructionsBuilder.push_br_spec ⟨[], []⟩
      ⟨[([IrProvider.Register (IrRegister.Dynamic 1)], ⟨0, 1⟩)],
        [IrProvider.Register (IrRegister.Dynamic 1)]⟩
      7 (IrRegister.Dynamic 5) ⟨IrRegister.Dynamic 0, 1⟩ ⟨0, 1⟩).2
  exact ⟨inst, by simpa using hp, h1 (by decide)⟩

theorem list_get?_set_ne {α : Type _} {l : List α} {i j : Nat} {v : α}
    (h : i ≠ j) : (l.set i v).get? j = l.get? j := by
  rw [List.get?_eq_getElem?, List.get?_eq_getElem?, List.getElem?_set_ne h]

theorem list_get?_set_eq {α : Type _} {l : List α} {i : Nat} {v : α}
    (h : i < l.length) : (l.set i v).get? i = some v := by
  simp [List.get?_eq_getElem?, List.getElem?_set, h]

theorem writeLeading_length (regs ps : List UntypedValue) :
    (writeLeading regs ps).length = regs.length := by
  induction regs generalizing ps with
  | nil => cases ps <;> rfl
  | cons a t ih =>
    cases ps with
    | nil => rfl
    | cons p pt => simp [writeLeading, ih]

theorem writeLeading_get?_lt (regs ps : List UntypedValue) (i : Nat)
    (h : i < ps.length) (h2 : i < regs.length) :
    (writeLeading regs ps).get? i = ps.get? i := by
  induction regs generalizing ps i with
  | nil => simp at h2
  | cons a t ih =>
    cases ps with
    | nil => simp at h
    | cons p pt =>
      cases i with
      | zero => rfl
      | succ j =>
        show (writeLeading t pt).get? j = pt.get? j
        exact ih pt j (by simpa using h) (by simpa using h2)

theorem writeLeading_get?_ge (regs ps : List UntypedValue) (i : Nat)
    (h : ps.length ≤ i) :
    (writeLeading regs ps).get? i = regs.get? i := by
  induction regs generalizing ps i with
  | nil => cases ps <;> rfl
  | cons a t ih =>
    cases ps with
    | nil => rfl
    | cons p pt =>
      cases i with
      | zero => simp at h
      | succ j =>
        show (writeLeading t pt).get? j = t.get? j
        exact ih pt j (by simpa using h)

theorem setPairs_length (regs : List UntypedValue)
    (pairs : List (Nat × UntypedValue)) :
    (setPairs regs pairs).length = regs.length := by
  induction pairs generalizing regs with
  | nil => rfl
  | cons pr rest ih =>
    obtain ⟨r, v⟩ := pr
    show (setPairs (regs.set r v) rest).length = regs.length
    rw [ih, List.length_set]

theorem setPairs_untouched (regs : List UntypedValue)
    (pairs : List (Nat × UntypedValue)) (j : Nat)
    (hj : ∀ pr ∈ pairs, pr.1 ≠ j) :
    (setPairs regs pairs).get? j = regs.get? j := by
  induction pairs generalizing regs with
  | nil => rfl
  | cons pr rest ih =>
    obtain ⟨r, v⟩ := pr
    show (setPairs (regs.set r v) rest).get? j = regs.get? j
    rw [ih _ fun pr hpr => hj pr (List.mem_cons_of_mem _ hpr)]
    exact list_get?_set_ne (hj (r, v) (List.mem_cons_self _ _))

theorem setPairs_written (regs : List UntypedValue)
    (pairs : List (Nat × UntypedValue))
    (hpw : pairs.Pairwise fun a b => a.1 ≠ b.1) :
    ∀ pr ∈ pairs, pr.1 < regs.length →
      (setPairs regs pairs).get? pr.1 = some pr.2 := by
  induction pairs generalizing regs with
  | nil => intro pr hpr; cases hpr
  | cons hd rest ih =>
    obtain ⟨r, v⟩ := hd
    obtain ⟨hhd, hrest⟩ := List.pairwise_cons.mp hpw
    intro pr hpr hlt
    rcases List.mem_cons.mp hpr with rfl | hpr
    · show (setPairs (regs.set r v) rest).get? r = some v
      rw [setPairs_untouched _ _ _ fun b hb => Ne.symm (hhd b hb)]
      exact list_get?_set_eq hlt
    · show (setPairs (regs.set r v) rest).get? pr.1 = some pr.2
      exact ih _ hrest pr hpr (by rwa [List.length_set])

theorem writeParams_length {res : EngineResources}
    {cr ke w : List UntypedValue} {prs : List (ExecProvider × Nat)}
    (h : writeParams res cr ke prs = some w) : w.length = ke.length := by
  induction prs generalizing ke with
  | nil => cases h; rfl
  | cons pr rest ih =>
    obtain ⟨p, r⟩ := pr
    unfold writeParams at h
    match hl : load_provider res cr p with
    | none => rw [hl] at h; cases h
    | some v =>
      rw [hl] at h
      simp only [Option.bind_eq_bind, Option.some_bind] at h
      rw [ih h, List.length_set]

theorem writeParams_untouched {res : EngineResources}
    {cr ke w : List UntypedValue} {prs : List (ExecProvider × Nat)}
    (h : writeParams res cr ke prs = some w) (j : Nat)
    (hj : ∀ pr ∈ prs, pr.2 ≠ j) : w.get? j = ke.get? j := by
  induction prs generalizing ke with
  | nil => cases h; rfl
  | cons pr rest ih =>
    obtain ⟨p, r⟩ := pr
    unfold writeParams at h
    match hl : load_provider res cr p with
    | none => rw [hl] at h; cases h
    | some v =>
      rw [hl] at h
      simp only [Option.bind_eq_bind, Option.some_bind] at h
      rw [ih h fun pr hpr => hj pr (List.mem_cons_of_mem _ hpr)]
      exact list_get?_set_ne (hj (p, r) (List.mem_cons_self _ _))

theorem writeParams_written {res : EngineResources}
    {cr ke w : List UntypedValue} {prs : List (ExecProvider × Nat)}
    (hpw : prs.Pairwise fun a b => a.2 ≠ b.2)
    (h : writeParams res cr ke prs = some w) :
    ∀ pr ∈ prs, pr.2 < ke.length →
      ∃ v, load_provider res cr pr.1 = some v ∧ w.get? pr.2 = some v := by
  induction prs generalizing ke with
  | nil => intro pr hpr; cases hpr
  | cons hd rest ih =>
    obtain ⟨p, r⟩ := hd
    obtain ⟨hhd, hrest⟩ := List.pairwise_cons.mp hpw
    intro pr hpr hlt
    unfold writeParams at h
    match hl : load_provider res cr p with
    | none => rw [hl] at h; cases h
    | some v =>
      rw [hl] at h
      simp only [Option.bind_eq_bind, Option.some_bind] at h
      rcases List.mem_cons.mp hpr with rfl | hpr
      · refine ⟨v, hl, ?_⟩
        rw [writeParams_untouched h _ fun b hb => Ne.symm (hhd b hb)]
        exact list_get?_set_eq hlt
      · exact ih hrest h pr hpr (by rwa [List.length_set])

theorem writeParams_some {res : EngineResources}
    {cr : List UntypedValue} {prs : List (ExecProvider × Nat)}
    (hl : ∀ pr ∈ prs, (load_provider res cr pr.1).isSome) :
    ∀ ke, ∃ w, writeParams res cr ke prs = some w := by
  induction prs with
  | nil => intro ke; exact ⟨ke, rfl⟩
  | cons hd rest ih =>
    intro ke
    obtain ⟨p, r⟩ := hd
    obtain ⟨v, hv⟩ := Option.isSome_iff_exists.mp
      (hl (p, r) (List.mem_cons_self _ _))
    obtain ⟨w, hw⟩ := ih (fun pr hpr => hl pr (List.mem_cons_of_mem _ hpr))
      (ke.set r v)
    exact ⟨w, by unfold writeParams; rw [hv]; simpa using hw⟩

theorem copyResults_length {res : EngineResources}
    {cr ke w : List UntypedValue} {prs : List (Nat × ExecProvider)}
    (h : copyResults res cr ke prs = some w) : w.length = cr.length := by
  induction prs generalizing cr with
  | nil => cases h; rfl
  | cons pr rest ih =>
    obtain ⟨r, p⟩ := pr
    unfold copyResults at h
    match hl : load_provider res ke p with
    | none => rw [hl] at h; cases h
    | some v =>
      rw [hl] at h
      simp only [Option.bind_eq_bind, Option.some_bind] at h
      rw [ih h, List.length_set]

theorem copyResults_untouched {res : EngineResources}
    {cr ke w : List UntypedValue} {prs : List (Nat × ExecProvider)}
    (h : copyResults res cr ke prs = some w) (j : Nat)
    (hj : ∀ pr ∈ prs, pr.1 ≠ j) : w.get? j = cr.get? j := by
  induction prs generalizing cr with
  | nil => cases h; rfl
  | cons pr rest ih =>
    obtain ⟨r, p⟩ := pr
    unfold copyResults at h
    match hl : load_provider res ke p with
    | none => rw [hl] at h; cases h
    | some v =>
      rw [hl] at h
      simp only [Option.bind_eq_bind, Option.some_bind] at h
      rw [ih h fun pr hpr => hj pr (List.mem_cons_of_mem _ hpr)]
      exact list_get?_set_ne (hj (r, p) (List.mem_cons_self _ _))

theorem copyResults_written {res : EngineResources}
    {cr ke w : List UntypedValue} {prs : List (Nat × ExecProvider)}
    (hpw : prs.Pairwise fun a b => a.1 ≠ b.1)
    (h : copyResults res cr ke prs = some w) :
    ∀ pr ∈ prs, pr.1 < cr.length →
      ∃ v, load_provider res ke pr.2 = some v ∧ w.get? pr.1 = some v := by
  induction prs generalizing cr with
  | nil => intro pr hpr; cases hpr
  | cons hd rest ih =>
    obtain ⟨r, p⟩ := hd
    obtain ⟨hhd, hrest⟩ := List.pairwise_cons.mp hpw
    intro pr hpr hlt
    unfold copyResults at h
    match hl : load_provider res ke p with
    | none => rw [hl] at h; cases h
    | some v =>
      rw [hl] at h
      simp only [Option.bind_eq_bind, Option.some_bind] at h
      rcases List.mem_cons.mp hpr with rfl | hpr
      · refine ⟨v, hl, ?_⟩
        rw [copyResults_untouched h _ fun b hb => Ne.symm (hhd b hb)]
        exact list_get?_set_eq hlt
      · exact ih hrest h pr hpr (by rwa [List.length_set])

theorem copyResults_some {res : EngineResources}
    {ke : List UntypedValue} {prs : List (Nat × ExecProvider)}
    (hl : ∀ pr ∈ prs, (load_provider res ke pr.2).isSome) :
    ∀ cr, ∃ w, copyResults res cr ke prs = some w := by
  induction prs with
  | nil => intro cr; exact ⟨cr, rfl⟩
  | cons hd rest ih =>
    intro cr
    obtain ⟨r, p⟩ := hd
    obtain ⟨v, hv⟩ := Option.isSome_iff_exists.mp
      (hl (r, p) (List.mem_cons_self _ _))
    obtain ⟨w, hw⟩ := ih (fun pr hpr => hl pr (List.mem_cons_of_mem _ hpr))
      (cr.set r v)
    exact ⟨w, by unfold copyResults; rw [hv]; simpa using hw⟩

theorem frame_regs_length (vs : ValueStack) (region : FrameRegion)
    (h : region.start + region.len ≤ vs.values.length) :
    (vs.frame_regs region).length = region.len := by
  simp only [ValueStack.frame_regs, List.length_take, List.length_drop]
  omega

theorem paired_frame_regs_fst (vs : ValueStack) (fst snd : FrameRegion)
    (hadj : fst.start + fst.len = snd.start) :
    (vs.paired_frame_regs fst snd).1 =
      (vs.values.drop fst.start).take fst.len := by
  simp only [ValueStack.paired_frame_regs, List.take_take]
  rw [show fst.len ⊓ (snd.start + snd.len - fst.start) = fst.len from by omega]

theorem paired_frame_regs_snd (vs : ValueStack) (fst snd : FrameRegion)
    (hadj : fst.start + fst.len = snd.start) :
    (vs.paired_frame_regs fst snd).2 =
      (vs.values.drop snd.start).take snd.len := by
  simp only [ValueStack.paired_frame_regs, List.drop_take, List.drop_drop]
  rw [show snd.start + snd.len - fst.start - fst.len = snd.len from by omega,
    hadj]

theorem setRegion_length (vs : ValueStack) (region : FrameRegion)
    (w : List UntypedValue) (hw : w.length = region.len)
    (hb : region.start + region.len ≤ vs.values.length) :
    (vs.setRegion region w).values.length = vs.values.length := by
  simp only [ValueStack.setRegion, List.length_append, List.length_take,
    List.length_drop]
  omega

theorem setRegion_get?_left (vs : ValueStack) (region : FrameRegion)
    (w : List UntypedValue) (j : Nat)
    (hb : region.start ≤ vs.values.length) (hj : j < region.start) :
    (vs.setRegion region w).values.get? j = vs.values.get? j := by
  simp only [ValueStack.setRegion]
  rw [List.append_assoc, List.get?_append (by simp; omega)]
  exact List.get?_take hj

theorem setRegion_get?_mid (vs : ValueStack) (region : FrameRegion)
    (w : List UntypedValue) (j : Nat) (hw : w.length = region.len)
    (hb : region.start + region.len ≤ vs.values.length)
    (hj : j < region.len) :
    (vs.setRegion region w).values.get? (region.start + j) = w.get? j := by
  simp only [ValueStack.setRegion]
  rw [List.append_assoc,
    List.get?_append_right (by rw [List.length_take]; omega)]
  rw [show region.start + j - (vs.values.take region.start).length = j from by
    rw [List.length_take]; omega]
  rw [List.get?_append (by omega)]

theorem setRegion_get?_right (vs : ValueStack) (region : FrameRegion)
    (w : List UntypedValue) (j : Nat) (hw : w.length = region.len)
    (hb : region.start + region.len ≤ vs.values.length)
    (hj : region.start + region.len ≤ j) :
    (vs.setRegion region w).values.get? j = vs.values.get? j := by
  simp only [ValueStack.setRegion]
  rw [List.append_assoc,
    List.get?_append_right (by simp; omega),
    List.get?_append_right (by simp; omega)]
  rw [List.get?_drop]
  congr 1
  simp
  omega

theorem shrink_by_length (vs : ValueStack) (delta : Nat) :
    (vs.shrink_by delta).values.length = vs.values.length - delta := by
  simp only [ValueStack.shrink_by, List.length_take]
  omega

theorem shrink_by_get? (vs : ValueStack) (delta j : Nat)
    (hj : j < vs.values.length - delta) :
    (vs.shrink_by delta).values.get? j = vs.values.get? j := by
  exact List.get?_take (by omega)

theorem extend_by_of_le (vs : ValueStack) (delta : Nat)
    (h1 : vs.len + delta ≤ USIZE_MAX) (h2 : vs.len + delta ≤ vs.maximum_len) :
    vs.extend_by delta = (.ok ⟨vs.len, delta⟩,
      ⟨vs.values ++ List.replicate delta 0, vs.maximum_len⟩) := by
  unfold ValueStack.extend_by
  rw [if_pos ⟨h1, h2⟩]

/-- C10: after a successful `Stack::init` for a function with `n`
declared registers and `k ≤ n` parameters, the root frame covers the
region `(0, n)`, its window has length exactly `n`, the first `k`
registers hold the parameter values in order, and the remaining `n - k`
registers are zero. -/
theorem Stack.init_spec (stack : Stack) (len_regs : Nat)
    (params : List UntypedValue)
    (hk : params.length ≤ len_regs)
    (hmax : len_regs ≤ stack.values.maximum_len)
    (husize : len_regs ≤ USIZE_MAX)
    (hdepth : 1 ≤ stack.frames.maximum_recursion_depth) :
    ∃ s2, Stack.init stack len_regs params = some (.ok s2) ∧
      s2.frames.frames =
        [⟨⟨0, len_regs⟩, ExecRegisterSlice.empty, 0⟩] ∧
      s2.values.len = len_regs ∧
      (s2.values.frame_regs ⟨0, len_regs⟩).length = len_regs ∧
      (∀ i < params.length,
        (s2.values.frame_regs ⟨0, len_regs⟩).get? i = params.get? i) ∧
      (∀ i, params.length ≤ i → i < len_regs →
        (s2.values.frame_regs ⟨0, len_regs⟩).get? i = some 0) := by
  have hext : (stack.reset).values.extend_by len_regs =
      (.ok ⟨0, len_regs⟩,
        ⟨List.replicate len_regs 0, stack.values.maximum_len⟩) := by
    have h := extend_by_of_le ⟨[], stack.values.maximum_len⟩ len_regs
      (by simpa [ValueStack.len] using husize)
      (by simpa [ValueStack.len] using hmax)
    simpa [Stack.reset, ValueStack.len] using h
  have hpush : (stack.reset).frames.push_frame ⟨0, len_regs⟩
      ExecRegisterSlice.empty =
      .ok ⟨[⟨⟨0, len_regs⟩, ExecRegisterSlice.empty, 0⟩],
        stack.frames.maximum_recursion_depth⟩ := by
    unfold FrameStack.push_frame
    rw [if_pos (by simpa [Stack.reset] using hdepth)]
    simp [Stack.reset]
  unfold Stack.init
  rw [if_pos hk]
  simp only [hext, hpush]
  have hwindow : (ValueStack.mk (List.replicate len_regs 0)
      stack.values.maximum_len).frame_regs ⟨0, len_regs⟩ =
      List.replicate len_regs 0 := by
    simp [ValueStack.frame_regs]
  rw [hwindow]
  set w1 := writeLeading (List.replicate len_regs 0) params with hw1
  have hw1len : w1.length = len_regs := by
    rw [hw1, writeLeading_length, List.length_replicate]
  have hvals : ((ValueStack.mk (List.replicate len_regs 0)
      stack.values.maximum_len).setRegion ⟨0, len_regs⟩ w1).values = w1 := by
    simp only [ValueStack.setRegion]
    rw [List.take_zero, List.nil_append, Nat.zero_add,
      List.drop_eq_nil_of_le (by rw [List.length_replicate]),
      List.append_nil]
  refine ⟨_, rfl, rfl, ?_, ?_, ?_, ?_⟩
  · show ((ValueStack.mk _ _).setRegion _ _).values.length = len_regs
    rw [hvals, hw1len]
  · show (((ValueStack.mk _ _).setRegion _ _).frame_regs _).length = len_regs
    simp only [ValueStack.frame_regs, hvals]
    rw [List.drop_zero, List.take_all_of_le (by omega), hw1len]
  · intro i hi
    show (((ValueStack.mk _ _).setRegion _ _).frame_regs _).get? i = _
    simp only [ValueStack.frame_regs, hvals]
    rw [List.drop_zero, List.take_all_of_le (by omega)]
    exact writeLeading_get?_lt _ _ _ hi (by rw [List.length_replicate]; omega)
  · intro i hi1 hi2
    show (((ValueStack.mk _ _).setRegion _ _).frame_regs _).get? i = some 0
    simp only [ValueStack.frame_regs, hvals]
    rw [List.drop_zero, List.take_all_of_le (by omega)]
    rw [hw1, writeLeading_get?_ge _ _ _ hi1]
    simp [List.get?_eq_getElem?, List.getElem?_replicate, hi2]

/-- Witness for C10 at a concrete input: initializing a stack for a
function with three registers and one parameter value `7` yields the
window `[7, 0, 0]`. -/
theorem Stack.init_spec_witness :
    ∃ s2, Stack.init ⟨⟨[9, 9], 100⟩, ⟨[], 4⟩⟩ 3 [7] = some (.ok s2) ∧
      (s2.values.frame_regs ⟨0, 3⟩).get? 0 = some 7 ∧
      (s2.values.frame_regs ⟨0, 3⟩).get? 2 = some 0 := by
  obtain ⟨s2, hinit, hframes, hlen, hwlen, hlo, hhi⟩ :=
    Stack.init_spec ⟨⟨[9, 9], 100⟩, ⟨[], 4⟩⟩ 3 [7] (by decide) (by decide)
      (by unfold USIZE_MAX; omega) (by decide)
  exact ⟨s2, hinit, by simpa using hlo 0 (by decide),
    hhi 2 (by decide) (by decide)⟩

theorem extend_by_ok_inv {vs : ValueStack} {delta : Nat}
    {region : FrameRegion} {vs2 : ValueStack}
    (h : vs.extend_by delta = (.ok region, vs2)) :
    region = ⟨vs.len, delta⟩ ∧
      vs2.values = vs.values ++ List.replicate delta 0 ∧
      vs2.maximum_len = vs.maximum_len ∧
      vs.len + delta ≤ vs.maximum_len := by
  unfold ValueStack.extend_by at h
  by_cases hc : vs.len + delta ≤ USIZE_MAX ∧ vs.len + delta ≤ vs.maximum_len
  · rw [if_pos hc] at h
    simp only [Prod.mk.injEq, Except.ok.injEq] at h
    obtain ⟨hr, hv⟩ := h
    subst hr hv
    exact ⟨rfl, rfl, rfl, hc.2⟩
  · rw [if_neg hc] at h
    simp at h

/-- C3 counterexample: a host function of one parameter that traps,
invoked through `Stack::call_host` on a stack of value-stack length one,
leaves the value stack at length two: the callee window is not removed
on the trap path, so the value-stack length after the call differs from
the length before the call. -/
theorem Stack.call_host_trap_counterexample :
    ∃ s2,
      Stack.call_host
        ⟨⟨[0], 100⟩, ⟨[⟨⟨0, 1⟩, ExecRegisterSlice.empty, 0⟩], 10⟩⟩
        ⟨1, 0, fun _ => none⟩ ExecRegisterSlice.empty ⟨0, 0⟩
        ⟨[], DedupProviderSliceArena.empty⟩ =
        some (.error Trap.host, s2) ∧
      s2.values.len ≠
        (Stack.mk ⟨[0], 100⟩
          ⟨[⟨⟨0, 1⟩, ExecRegisterSlice.empty, 0⟩], 10⟩).values.len := by
  refine ⟨⟨⟨[0, 0], 100⟩, ⟨[⟨⟨0, 1⟩, ExecRegisterSlice.empty, 0⟩], 10⟩⟩,
    rfl, by decide⟩

/-- C3 (amended): a trap returned by a host function through
`Stack::call_host` does not drain the value stack at the call itself:
the callee window stays allocated, so the value-stack length grows by
`max(len_params, len_results)` and the frame stack is unchanged.  The
stacks are instead drained when the engine starts the next computation:
`Stack::reset` clears both stacks, and `Stack::init` (which begins by
resetting) depends only on the configured limits, not on any residue
left by a previous trapped execution, so the engine is safe to reuse. -/
theorem Stack.call_host_trap_spec :
    (∀ (stack : Stack) (host : HostFuncEntity)
        (results : ExecRegisterSlice) (args : ExecProviderSlice)
        (res : EngineResources) (caller : StackFrame)
        (rest : List StackFrame) (s2 : Stack),
      stack.frames.frames = caller :: rest →
      caller.region.start + caller.region.len = stack.values.len →
      Stack.call_host stack host results args res =
        some (.error Trap.host, s2) →
      s2.values.len =
        stack.values.len + max host.len_params host.len_results ∧
      s2.frames = stack.frames)
    ∧ (∀ s : Stack,
        (s.reset).values.len = 0 ∧ (s.reset).frames.frames = [])
    ∧ (∀ s1 s2 : Stack,
        s1.values.maximum_len = s2.values.maximum_len →
        s1.frames.maximum_recursion_depth =
          s2.frames.maximum_recursion_depth →
        ∀ n ps, Stack.init s1 n ps = Stack.init s2 n ps) := by
  refine ⟨?_, ?_, ?_⟩
  · intro stack host results args res caller rest s2 hframes hcap hcall
    match hext : stack.values.extend_by (max host.len_params host.len_results)
      with
    | (.error tc, values1) =>
      have heq : Stack.call_host stack host results args res =
          some (.error (.code tc), ⟨values1, stack.frames⟩) := by
        unfold Stack.call_host
        simp only [hframes, hext]
      rw [heq] at hcall
      simp only [Option.some.injEq, Prod.mk.injEq] at hcall
      cases hcall.1
    | (.ok callee_region, values1) =>
      obtain ⟨hreg, hvals, hmaxlen, _⟩ := extend_by_ok_inv hext
      match hwp : writeParams res
        (values1.paired_frame_regs caller.region callee_region).1
        (values1.paired_frame_regs caller.region callee_region).2
        ((res.provider_pool.resolve args).zip
          (ExecRegisterSlice.params host.len_params).toList) with
      | none =>
        have heq : Stack.call_host stack host results args res = none := by
          unfold Stack.call_host
          simp only [hframes, hext, hwp]
        rw [heq] at hcall
        cases hcall
      | some callee_regs2 =>
        match hhost : host.behavior callee_regs2 with
        | some hostOut =>
          obtain ⟨st, heq⟩ : ∃ st,
              Stack.call_host stack host results args res =
                some (.ok (), st) :=
            ⟨_, by
              unfold Stack.call_host
              simp only [hframes, hext, hwp, hhost]
              rfl⟩
          rw [heq] at hcall
          simp only [Option.some.injEq, Prod.mk.injEq] at hcall
          cases hcall.1
        | none =>
          have heq : Stack.call_host stack host results args res =
              some (.error Trap.host,
                ⟨values1.setRegion callee_region callee_regs2,
                  stack.frames⟩) := by
            unfold Stack.call_host
            simp only [hframes, hext, hwp, hhost]
          rw [heq] at hcall
          simp only [Option.some.injEq, Prod.mk.injEq] at hcall
          obtain ⟨-, hs2⟩ := hcall
          subst hs2
          constructor
          · show (values1.setRegion callee_region callee_regs2).values.length
              = _
            have hv1len : values1.values.length =
                stack.values.len + max host.len_params host.len_results := by
              rw [hvals]
              simp [ValueStack.len]
            have hc2len : callee_regs2.length = callee_region.len := by
              rw [writeParams_length hwp,
                paired_frame_regs_snd _ _ _ (by rw [hcap, hreg])]
              rw [List.length_take, List.length_drop, hreg, hv1len]
              simp only
              omega
            rw [setRegion_length _ _ _ hc2len
              (by rw [hreg, hv1len]), hv1len]
          · rfl
  · intro s
    exact ⟨rfl, rfl⟩
  · intro s1 s2 h1 h2 n ps
    unfold Stack.init Stack.reset
    rw [h1, h2]

/-- Witness for the amended C3 at the concrete trapping host call: the
value stack grows from length one to length two while the frame stack is
unchanged. -/
theorem Stack.call_host_trap_spec_witness :
    (Stack.mk ⟨[0, 0], 100⟩
        ⟨[⟨⟨0, 1⟩, ExecRegisterSlice.empty, 0⟩], 10⟩).values.len =
      (Stack.mk ⟨[0], 100⟩
        ⟨[⟨⟨0, 1⟩, ExecRegisterSlice.empty, 0⟩], 10⟩).values.len + max 1 0 ∧
    (Stack.mk ⟨[0, 0], 100⟩
        ⟨[⟨⟨0, 1⟩, ExecRegisterSlice.empty, 0⟩], 10⟩).frames =
      ⟨[⟨⟨0, 1⟩, ExecRegisterSlice.empty, 0⟩], 10⟩ :=
  Stack.call_host_trap_spec.1
    ⟨⟨[0], 100⟩, ⟨[⟨⟨0, 1⟩, ExecRegisterSlice.empty, 0⟩], 10⟩⟩
    ⟨1, 0, fun _ => none⟩ ExecRegisterSlice.empty ⟨0, 0⟩
    ⟨[], DedupProviderSliceArena.empty⟩
    ⟨⟨0, 1⟩, ExecRegisterSlice.empty, 0⟩ []
    ⟨⟨[0, 0], 100⟩, ⟨[⟨⟨0, 1⟩, ExecRegisterSlice.empty, 0⟩], 10⟩⟩
    rfl (by decide) rfl

theorem execSlice_toList_get? (s : ExecRegisterSlice) (i : Nat)
    (h : i < s.len) : s.toList.get? i = some (s.first + i) := by
  unfold ExecRegisterSlice.toList
  rw [List.get?_map, List.get?_range h]
  rfl

theorem execSlice_toList_length (s : ExecRegisterSlice) :
    s.toList.length = s.len := by
  simp [ExecRegisterSlice.toList]

theorem pairwise_fst_ne_zip {α β : Type _} {l1 : List α} (l2 : List β)
    (h : l1.Pairwise (· ≠ ·)) :
    (l1.zip l2).Pairwise (fun a b => a.1 ≠ b.1) := by
  induction l1 generalizing l2 with
  | nil => simp
  | cons a t ih =>
    cases l2 with
    | nil => simp
    | cons b u =>
      obtain ⟨hhd, htl⟩ := List.pairwise_cons.mp h
      refine List.Pairwise.cons ?_ (ih u htl)
      intro x hx
      exact hhd x.1 (List.mem_zip hx).1

theorem execSlice_toList_pairwise_ne (s : ExecRegisterSlice) :
    s.toList.Pairwise (· ≠ ·) := by
  unfold ExecRegisterSlice.toList
  exact (List.pairwise_lt_range s.len).map _
    (fun a b hab => by omega)

/-- C8: returning from a callee Wasm frame to its caller through
`Stack::return_wasm` (with more than one frame on the stack) copies the
values of the returned providers, read from the callee window, into
exactly the caller-specified result registers of the caller window,
shrinks the value stack by exactly the callee region length, pops the
callee frame, and leaves every caller register outside the result slice
unchanged. -/
theorem Stack.return_wasm_spec (stack : Stack)
    (returned : ExecProviderSlice) (res : EngineResources)
    (callee caller : StackFrame) (rest : List StackFrame) (s2 : Stack)
    (hframes : stack.frames.frames = callee :: caller :: rest)
    (hadj : caller.region.start + caller.region.len = callee.region.start)
    (htop : callee.region.start + callee.region.len = stack.values.len)
    (hres : callee.results.first + callee.results.len ≤ caller.region.len)
    (hcall : Stack.return_wasm stack returned res = some (some s2)) :
    s2.frames.frames = caller :: rest ∧
    s2.values.len = stack.values.len - callee.region.len ∧
    (∀ i p, (res.provider_pool.resolve returned).get? i = some p →
      ∀ v, load_provider res (stack.values.frame_regs callee.region) p =
        some v →
      s2.values.values.get?
        (caller.region.start + (callee.results.first + i)) = some v) ∧
    (∀ j < caller.region.len,
      j < callee.results.first ∨
        callee.results.first + callee.results.len ≤ j →
      s2.values.values.get? (caller.region.start + j) =
        stack.values.values.get? (caller.region.start + j)) := by
  have hVlen0 : caller.region.start + caller.region.len ≤
      stack.values.values.length := by
    show _ ≤ stack.values.values.length
    have : stack.values.len = stack.values.values.length := rfl
    omega
  by_cases hlen0 : callee.results.len =
    (res.provider_pool.resolve returned).length
  case neg =>
    exfalso
    have heq : Stack.return_wasm stack returned res = none := by
      unfold Stack.return_wasm
      simp only [hframes]
      rw [if_neg hlen0]
    rw [heq] at hcall
    cases hcall
  case pos =>
  match hcp : copyResults res
    (stack.values.paired_frame_regs caller.region callee.region).1
    (stack.values.paired_frame_regs caller.region callee.region).2
    (callee.results.toList.zip (res.provider_pool.resolve returned)) with
  | none =>
    exfalso
    have heq : Stack.return_wasm stack returned res = none := by
      unfold Stack.return_wasm
      simp only [hframes]
      rw [if_pos hlen0]
      simp only [hcp]
    rw [heq] at hcall
    cases hcall
  | some cr2 =>
    have heq : Stack.return_wasm stack returned res =
        some (some ⟨(stack.values.setRegion caller.region cr2).shrink_by
            callee.region.len,
          { stack.frames with frames := caller :: rest }⟩) := by
      unfold Stack.return_wasm
      simp only [hframes]
      rw [if_pos hlen0]
      simp only [hcp]
    rw [heq] at hcall
    simp only [Option.some.injEq] at hcall
    subst hcall
    have hcallee_regs :
        (stack.values.paired_frame_regs caller.region callee.region).2 =
          stack.values.frame_regs callee.region :=
      paired_frame_regs_snd _ _ _ hadj
    have hcaller_regs :
        (stack.values.paired_frame_regs caller.region callee.region).1 =
          (stack.values.values.drop caller.region.start).take
            caller.region.len :=
      paired_frame_regs_fst _ _ _ hadj
    have hcrlen :
        (stack.values.paired_frame_regs caller.region callee.region).1.length
          = caller.region.len := by
      rw [hcaller_regs, List.length_take, List.length_drop]
      have : stack.values.len = stack.values.values.length := rfl
      omega
    have hcr2len : cr2.length = caller.region.len := by
      rw [copyResults_length hcp, hcrlen]
    have hsetlen : ((stack.values.setRegion caller.region cr2)).values.length
        = stack.values.values.length :=
      setRegion_length _ _ _ hcr2len hVlen0
    have hpw : (callee.results.toList.zip
        (res.provider_pool.resolve returned)).Pairwise
        (fun a b => a.1 ≠ b.1) :=
      pairwise_fst_ne_zip _ (execSlice_toList_pairwise_ne _)
    refine ⟨rfl, ?_, ?_, ?_⟩
    · show ((stack.values.setRegion caller.region cr2).shrink_by
        callee.region.len).values.length = _
      rw [shrink_by_length, hsetlen]
      rfl
    · intro i p hp v hv
      have hilen : i < (res.provider_pool.resolve returned).length := by
        by_contra hcon
        rw [List.get?_eq_none.mpr (by omega)] at hp
        cases hp
      have hpair : (callee.results.toList.zip
          (res.provider_pool.resolve returned)).get? i =
          some (callee.results.first + i, p) := by
        rw [List.get?_zip_eq_some]
        exact ⟨execSlice_toList_get? _ _ (by omega), hp⟩
      have hmem := List.get?_mem hpair
      obtain ⟨v2, hv2, hcr2get⟩ := copyResults_written hpw hcp _ hmem
        (by rw [hcrlen]; simpa using by omega)
      rw [hcallee_regs] at hv2
      rw [hv] at hv2
      cases hv2
      show ((stack.values.setRegion caller.region cr2).shrink_by
        callee.region.len).values.get? _ = _
      rw [shrink_by_get?]
      · rw [setRegion_get?_mid _ _ _ _ hcr2len hVlen0 (by omega)]
        exact hcr2get
      · rw [hsetlen]
        have : stack.values.len = stack.values.values.length := rfl
        omega
    · intro j hj hout
      have huntouched : cr2.get? j =
          (stack.values.paired_frame_regs caller.region callee.region).1.get?
            j := by
        refine copyResults_untouched hcp _ ?_
        intro pr hpr
        have h1 := (List.mem_zip hpr).1
        unfold ExecRegisterSlice.toList at h1
        obtain ⟨k, hk, hkeq⟩ := List.mem_map.mp h1
        rw [List.mem_range] at hk
        rcases hout with hout | hout <;> omega
      show ((stack.values.setRegion caller.region cr2).shrink_by
        callee.region.len).values.get? _ = _
      rw [shrink_by_get?]
      · rw [setRegion_get?_mid _ _ _ _ hcr2len hVlen0 hj, huntouched,
          hcaller_regs, List.get?_take hj, List.get?_drop]
      · rw [hsetlen]
        have : stack.values.len = stack.values.values.length := rfl
        omega

/-- Witness for C8 at a concrete input: with caller window `[10, 20]`
and callee window `[30]`, returning provider register `0` of the callee
into caller result register `0` yields the value stack `[30, 20]`: the
result register receives `30`, register `1` is unchanged, and the callee
region is removed. -/
theorem Stack.return_wasm_spec_witness :
    ((Stack.mk ⟨[30, 20], 100⟩
        ⟨[⟨⟨0, 2⟩, ExecRegisterSlice.empty, 0⟩], 10⟩).values.len =
      (Stack.mk ⟨[10, 20, 30], 100⟩
        ⟨[⟨⟨2, 1⟩, ⟨0, 1⟩, 0⟩, ⟨⟨0, 2⟩, ExecRegisterSlice.empty, 0⟩],
          10⟩).values.len - 1) ∧
    (Stack.mk ⟨[30, 20], 100⟩
        ⟨[⟨⟨0, 2⟩, ExecRegisterSlice.empty, 0⟩],
          10⟩).values.values.get? (0 + (0 + 0)) = some 30 ∧
    (Stack.mk ⟨[30, 20], 100⟩
        ⟨[⟨⟨0, 2⟩, ExecRegisterSlice.empty, 0⟩],
          10⟩).values.values.get? (0 + 1) =
      (Stack.mk ⟨[10, 20, 30], 100⟩
        ⟨[⟨⟨2, 1⟩, ⟨0, 1⟩, 0⟩, ⟨⟨0, 2⟩, ExecRegisterSlice.empty, 0⟩],
          10⟩).values.values.get? (0 + 1) := by
  obtain ⟨hframes, hlen, hwrite, huntouched⟩ :=
    Stack.return_wasm_spec
      ⟨⟨[10, 20, 30], 100⟩,
        ⟨[⟨⟨2, 1⟩, ⟨0, 1⟩, 0⟩, ⟨⟨0, 2⟩, ExecRegisterSlice.empty, 0⟩], 10⟩⟩
      ⟨0, 1⟩ ⟨[], ⟨[([⟨0⟩], ⟨0, 1⟩)], [⟨0⟩]⟩⟩
      ⟨⟨2, 1⟩, ⟨0, 1⟩, 0⟩ ⟨⟨0, 2⟩, ExecRegisterSlice.empty, 0⟩ []
      ⟨⟨[30, 20], 100⟩, ⟨[⟨⟨0, 2⟩, ExecRegisterSlice.empty, 0⟩], 10⟩⟩
      rfl (by decide) (by decide) (by decide) rfl
  exact ⟨hlen, hwrite 0 ⟨0⟩ (by decide) 30 (by decide),
    huntouched 1 (by decide) (by decide)⟩

theorem take_drop_append_stable {α : Type _} (V Z : List α) (s l : Nat)
    (h : s + l ≤ V.length) : ((V ++ Z).drop s).take l = (V.drop s).take l := by
  rw [List.drop_append_eq_append_drop, List.take_append_eq_append_take]
  have h1 : s - V.length = 0 := by omega
  have h2 : l - (V.drop s).length = 0 := by
    rw [List.length_drop]; omega
  rw [h1, h2]
  simp

theorem pairwise_snd_ne_zip {α β : Type _} (l1 : List α) {l2 : List β}
    (h : l2.Pairwise (· ≠ ·)) :
    (l1.zip l2).Pairwise (fun a b => a.2 ≠ b.2) := by
  induction l1 generalizing l2 with
  | nil => simp
  | cons a t ih =>
    cases l2 with
    | nil => simp
    | cons b u =>
      obtain ⟨hhd, htl⟩ := List.pairwise_cons.mp h
      refine List.Pairwise.cons ?_ (ih htl)
      intro x hx
      exact hhd x.2 (List.mem_zip hx).2

theorem get?_eq_some_getD {α : Type _} (l : List α) (i : Nat) (d : α)
    (h : i < l.length) : l.get? i = some (l.getD i d) := by
  rw [List.getD_eq_get?]
  match hv : l.get? i with
  | some v => rfl
  | none =>
    exfalso
    have := List.get?_eq_none.mp hv
    omega

/-- C9: for every host-function call through `Stack::call_host` or
`Stack::call_host_as_root`, the value-stack window allocated for the
callee has length exactly `max(param_count, result_count)`, the
parameter values are placed in its leading registers (the rest of the
window being zero-initialized), the results are read back from the
leading registers of the same window after the host ran, and on
successful return of `call_host` the window is removed so the net
value-stack length change is zero. -/
theorem Stack.call_host_window_spec :
    (∀ (stack : Stack) (host : HostFuncEntity)
        (results : ExecRegisterSlice) (args : ExecProviderSlice)
        (res : EngineResources) (caller : StackFrame)
        (rest : List StackFrame) (s2 : Stack),
      stack.frames.frames = caller :: rest →
      caller.region.start + caller.region.len = stack.values.len →
      (res.provider_pool.resolve args).length = host.len_params →
      results.len = host.len_results →
      results.first + results.len ≤ caller.region.len →
      (∀ win out, host.behavior win = some out → out.length = win.length) →
      Stack.call_host stack host results args res = some (.ok (), s2) →
      s2.frames = stack.frames ∧
      s2.values.len = stack.values.len ∧
      ∃ w hostOut, host.behavior w = some hostOut ∧
        w.length = max host.len_params host.len_results ∧
        (∀ i p v, (res.provider_pool.resolve args).get? i = some p →
          load_provider res
            ((stack.values.values.drop caller.region.start).take
              caller.region.len) p = some v →
          w.get? i = some v) ∧
        (∀ i, host.len_params ≤ i →
          i < max host.len_params host.len_results → w.get? i = some 0) ∧
        (∀ i < results.len,
          s2.values.values.get?
            (caller.region.start + (results.first + i)) = hostOut.get? i))
    ∧ (∀ (stack : Stack) (host : HostFuncEntity)
        (params : List UntypedValue) (out : List UntypedValue) (s2 : Stack),
      stack.frames.frames = [] →
      params.length = host.len_params →
      Stack.call_host_as_root stack host params = some (.ok out, s2) →
      ∃ w hostOut, host.behavior w = some hostOut ∧
        w.length = max host.len_params host.len_results ∧
        (∀ i < host.len_params, w.get? i = params.get? i) ∧
        (∀ i, host.len_params ≤ i →
          i < max host.len_params host.len_results → w.get? i = some 0) ∧
        out = hostOut.take host.len_results) := by
  have hreplicate_take : ∀ (V Z : List UntypedValue) (n : Nat),
      V.length = n → ((V ++ Z).drop n).take Z.length = Z := by
    intro V Z n hV
    subst hV
    rw [List.drop_left, List.take_length]
  constructor
  · intro stack host results args res caller rest s2 hframes hcap hargs
      hreslen hresbound hhlen hcall
    match hext : stack.values.extend_by
      (max host.len_params host.len_results) with
    | (.error tc, v1) =>
      exfalso
      have heq : Stack.call_host stack host results args res =
          some (.error (.code tc), ⟨v1, stack.frames⟩) := by
        unfold Stack.call_host
        simp only [hframes, hext]
      rw [heq] at hcall
      simp only [Option.some.injEq, Prod.mk.injEq] at hcall
      cases hcall.1
    | (.ok region, values1) =>
      obtain ⟨hreg, hvals, hmax2, _⟩ := extend_by_ok_inv hext
      have hadj : caller.region.start + caller.region.len = region.start := by
        rw [hreg]
        exact hcap
      have hLV : stack.values.len = stack.values.values.length := rfl
      have hv1len : values1.values.length = stack.values.len +
          max host.len_params host.len_results := by
        rw [hvals]
        simp [ValueStack.len]
      have hcallee_regs :
          (values1.paired_frame_regs caller.region region).2 =
            List.replicate (max host.len_params host.len_results) 0 := by
        rw [paired_frame_regs_snd _ _ _ hadj, hreg, hvals]
        have := hreplicate_take stack.values.values
          (List.replicate (max host.len_params host.len_results) 0)
          stack.values.len hLV.symm
        simpa using this
      have hcaller_regs :
          (values1.paired_frame_regs caller.region region).1 =
            (stack.values.values.drop caller.region.start).take
              caller.region.len := by
        rw [paired_frame_regs_fst _ _ _ hadj, hvals]
        exact take_drop_append_stable _ _ _ _ (by omega)
      have hcrlen :
          (values1.paired_frame_regs caller.region region).1.length =
            caller.region.len := by
        rw [hcaller_regs, List.length_take, List.length_drop]
        omega
      match hwp : writeParams res
        (values1.paired_frame_regs caller.region region).1
        (values1.paired_frame_regs caller.region region).2
        ((res.provider_pool.resolve args).zip
          (ExecRegisterSlice.params host.len_params).toList) with
      | none =>
        exfalso
        have heq : Stack.call_host stack host results args res = none := by
          unfold Stack.call_host
          simp only [hframes, hext, hwp]
        rw [heq] at hcall
        cases hcall
      | some callee_regs2 =>
        have hwlen : callee_regs2.length =
            max host.len_params host.len_results := by
          rw [writeParams_length hwp, hcallee_regs, List.length_replicate]
        match hhost : host.behavior callee_regs2 with
        | none =>
          exfalso
          have heq : Stack.call_host stack host results args res =
              some (.error Trap.host,
                ⟨values1.setRegion region callee_regs2, stack.frames⟩) := by
            unfold Stack.call_host
            simp only [hframes, hext, hwp, hhost]
          rw [heq] at hcall
          simp only [Option.some.injEq, Prod.mk.injEq] at hcall
          cases hcall.1
        | some hostOut =>
          have hout_len : hostOut.length =
              max host.len_params host.len_results := by
            rw [hhlen _ _ hhost, hwlen]
          have heq : Stack.call_host stack host results args res =
              some (.ok (),
                ⟨(((values1.setRegion region hostOut).setRegion
                    caller.region
                    (setPairs
                      (values1.paired_frame_regs caller.region region).1
                      (results.toList.zip
                        ((ExecRegisterSlice.params
                          host.len_results).toList.map fun r =>
                            hostOut.getD r 0)))).shrink_by
                  (max host.len_params host.len_results)),
                  stack.frames⟩) := by
            unfold Stack.call_host
            simp only [hframes, hext, hwp, hhost]
          rw [heq] at hcall
          simp only [Option.some.injEq, Prod.mk.injEq] at hcall
          obtain ⟨-, hs2⟩ := hcall
          subst hs2
          set write_back := results.toList.zip
            ((ExecRegisterSlice.params host.len_results).toList.map fun r =>
              hostOut.getD r 0) with hwb
          set caller_regs2 := setPairs
            (values1.paired_frame_regs caller.region region).1 write_back
            with hcr2
          have hXlen : ((values1.setRegion region hostOut)).values.length =
              stack.values.len + max host.len_params host.len_results := by
            rw [setRegion_length _ _ _ (by rw [hout_len, hreg])
              (by rw [hreg, hv1len]), hv1len]
          have hcr2len : caller_regs2.length = caller.region.len := by
            rw [hcr2, setPairs_length, hcrlen]
          have hYlen : (((values1.setRegion region hostOut).setRegion
              caller.region caller_regs2)).values.length =
              stack.values.len + max host.len_params host.len_results := by
            rw [setRegion_length _ _ _ hcr2len (by rw [hXlen]; omega), hXlen]
          refine ⟨rfl, ?_, callee_regs2, hostOut, hhost, hwlen, ?_, ?_, ?_⟩
          · show (ValueStack.shrink_by _ _).values.length = _
            rw [shrink_by_length, hYlen]
            omega
          · intro i p v hp hv
            have hilen : i < (res.provider_pool.resolve args).length := by
              by_contra hcon
              rw [List.get?_eq_none.mpr (by omega)] at hp
              cases hp
            have hpair : ((res.provider_pool.resolve args).zip
                (ExecRegisterSlice.params host.len_params).toList).get? i =
                some (p, 0 + i) := by
              rw [List.get?_zip_eq_some]
              exact ⟨hp, execSlice_toList_get? _ _ (by
                show i < host.len_params
                omega)⟩
            have hmem := List.get?_mem hpair
            obtain ⟨v2, hv2, hwget⟩ := writeParams_written
              (pairwise_snd_ne_zip _ (execSlice_toList_pairwise_ne _)) hwp
              _ hmem (by
                show 0 + i <
                  (values1.paired_frame_regs caller.region region).2.length
                rw [hcallee_regs, List.length_replicate]
                omega)
            rw [hcaller_regs] at hv2
            rw [hv] at hv2
            cases hv2
            simpa using hwget
          · intro i hi1 hi2
            rw [writeParams_untouched hwp i (by
              intro pr hpr
              have h2 := (List.mem_zip hpr).2
              unfold ExecRegisterSlice.toList at h2
              obtain ⟨k, hk, hkeq⟩ := List.mem_map.mp h2
              rw [List.mem_range] at hk
              simp only [ExecRegisterSlice.params] at hk hkeq
              show pr.2 ≠ i
              omega)]
            rw [hcallee_regs]
            simp [List.get?_eq_getElem?, List.getElem?_replicate, hi2]
          · intro i hi
            have hj : results.first + i < caller.region.len := by omega
            show (ValueStack.shrink_by _ _).values.get? _ = _
            rw [shrink_by_get? _ _ _ (by rw [hYlen]; omega)]
            rw [setRegion_get?_mid _ _ _ _ hcr2len (by rw [hXlen]; omega) hj]
            have hwb_pair : write_back.get? i =
                some (results.first + i, hostOut.getD (0 + i) 0) := by
              rw [hwb, List.get?_zip_eq_some]
              refine ⟨execSlice_toList_get? _ _ hi, ?_⟩
              rw [List.get?_map, execSlice_toList_get? _ _ (by
                show i < host.len_results
                omega)]
              rfl
            have hmem := List.get?_mem hwb_pair
            have hset := setPairs_written
              (values1.paired_frame_regs caller.region region).1 write_back
              (by
                rw [hwb]
                exact pairwise_fst_ne_zip _ (execSlice_toList_pairwise_ne _))
              _ hmem (by rw [hcrlen]; simpa using hj)
            rw [← hcr2] at hset
            simp only at hset
            rw [hset]
            rw [get?_eq_some_getD hostOut i 0 (by omega)]
            simp
  · intro stack host params out s2 hframes hparams hcall
    match hext : stack.values.extend_by
      (max host.len_params host.len_results) with
    | (.error tc, v1) =>
      exfalso
      have heq : Stack.call_host_as_root stack host params =
          some (.error (.code tc), ⟨v1, stack.frames⟩) := by
        unfold Stack.call_host_as_root
        simp only [hframes, hext]
      rw [heq] at hcall
      simp only [Option.some.injEq, Prod.mk.injEq] at hcall
      cases hcall.1
    | (.ok region, values1) =>
      obtain ⟨hreg, hvals, hmax2, _⟩ := extend_by_ok_inv hext
      have hLV : stack.values.len = stack.values.values.length := rfl
      have hwindow : values1.frame_regs region =
          List.replicate (max host.len_params host.len_results) 0 := by
        show (values1.values.drop region.start).take region.len = _
        rw [hreg, hvals]
        have : ((stack.values.values ++
            List.replicate (max host.len_params host.len_results) 0).drop
              stack.values.len).take
            (List.replicate (max host.len_params host.len_results)
              (0 : UntypedValue)).length =
            List.replicate (max host.len_params host.len_results) 0 := by
          rw [show stack.values.len = stack.values.values.length from rfl,
            List.drop_left, List.take_length]
        simpa using this
      match hhost : host.behavior (writeLeading (values1.frame_regs region)
        params) with
      | none =>
        exfalso
        have heq : Stack.call_host_as_root stack host params =
            some (.error Trap.host,
              ⟨values1.setRegion region
                (writeLeading (values1.frame_regs region) params),
                stack.frames⟩) := by
          unfold Stack.call_host_as_root
          simp only [hframes, hext, hhost]
        rw [heq] at hcall
        simp only [Option.some.injEq, Prod.mk.injEq] at hcall
        cases hcall.1
      | some hostOut =>
        have heq : Stack.call_host_as_root stack host params =
            some (.ok (hostOut.take host.len_results),
              ⟨(values1.setRegion region
                  (writeLeading (values1.frame_regs region)
                    params)).setRegion region hostOut,
                stack.frames⟩) := by
          unfold Stack.call_host_as_root
          simp only [hframes, hext, hhost]
        rw [heq] at hcall
        simp only [Option.some.injEq, Prod.mk.injEq, Except.ok.injEq]
          at hcall
        obtain ⟨hout, -⟩ := hcall
        refine ⟨writeLeading (values1.frame_regs region) params, hostOut,
          hhost, ?_, ?_, ?_, hout.symm⟩
        · rw [writeLeading_length, hwindow, List.length_replicate]
        · intro i hi
          rw [hwindow]
          exact writeLeading_get?_lt _ _ _ (by omega)
            (by rw [List.length_replicate]; omega)
        · intro i hi1 hi2
          rw [hwindow, writeLeading_get?_ge _ _ _ (by omega)]
          simp [List.get?_eq_getElem?, List.getElem?_replicate, hi2]

/-- Witness for C9: a host call with one parameter and one result on a
stack whose single caller frame holds the value `5`; the call succeeds,
the successor host function writes back `6`, and the value-stack length
is unchanged by the call. -/
theorem Stack.call_host_window_spec_witness :
    Stack.call_host
      ⟨⟨[5], 100⟩, ⟨[⟨⟨0, 1⟩, ExecRegisterSlice.empty, 0⟩], 16⟩⟩
      ⟨1, 1, fun w => some (w.map fun v => v + 1)⟩
      ⟨0, 1⟩ ⟨0, 1⟩ ⟨[], ⟨[], [⟨0⟩]⟩⟩ =
      some (.ok (),
        ⟨⟨[6], 100⟩, ⟨[⟨⟨0, 1⟩, ExecRegisterSlice.empty, 0⟩], 16⟩⟩) ∧
    (⟨⟨[6], 100⟩, ⟨[⟨⟨0, 1⟩, ExecRegisterSlice.empty, 0⟩], 16⟩⟩ :
      Stack).values.len =
      (⟨⟨[5], 100⟩, ⟨[⟨⟨0, 1⟩, ExecRegisterSlice.empty, 0⟩], 16⟩⟩ :
        Stack).values.len := by
  refine ⟨rfl, ?_⟩
  exact (Stack.call_host_window_spec.1
    ⟨⟨[5], 100⟩, ⟨[⟨⟨0, 1⟩, ExecRegisterSlice.empty, 0⟩], 16⟩⟩
    ⟨1, 1, fun w => some (w.map fun v => v + 1)⟩
    ⟨0, 1⟩ ⟨0, 1⟩ ⟨[], ⟨[], [⟨0⟩]⟩⟩
    ⟨⟨0, 1⟩, ExecRegisterSlice.empty, 0⟩ []
    ⟨⟨[6], 100⟩, ⟨[⟨⟨0, 1⟩, ExecRegisterSlice.empty, 0⟩], 16⟩⟩
    rfl rfl rfl rfl (by decide)
    (fun win out h => by
      injection h with h
      subst h
      simp)
    rfl).2.1

end Wasmi
